import Mathlib

/-!
Genetic-algorithm evolution engine (`src/genetic.cc`).

A shallow embedding of `class Genetic` and a verification of its documented properties.

Modelling conventions.

* C++ `int` values are `Int`; the places where a value is narrowed to 32 bits (the checkpoint
  header, the `(int)` casts) reduce explicitly.
* A `double` is handled in two ways.  A weight stored in a genome is its 64-bit object
  representation (a `Nat` below `2 ^ 64`): `save`/`load` move object representations only.  The two
  arithmetic expressions on doubles, `individuals.size()*0.2` and
  `randomNumber(0.0, 1.0) * (best.size()-1)`, are computed on scaled integers with IEEE-754
  round-to-nearest-even to 53 significant bits (`roundToDouble`).
* A process owns a `heap` of `Individual` objects; an `Individual*` is an address (a `Nat`), `0` is
  the null pointer, and address `a > 0` designates `heap[a - 1]`.  Objects are never freed by
  the code under study (only the destructor deletes), so the heap only grows.
* Undefined behaviour (an out-of-bounds `operator[]`, a null or dangling dereference, a
  float-to-int conversion out of range) and an uncaught exception are the result `none`.
  The expressions `&weights[0]`, `&temp[0]` and `&individuals[0]` only form the address of a
  buffer; with an empty vector they start a transfer of zero bytes.
* Console output is not modelled, but the reads performed to produce it are.
* The target is x86-64 Linux (LP64): `int` has 32 bits, a pointer 8 bytes, `char` is signed, the
  byte order is little-endian.
* `std::sort` is modelled by an insertion sort; only its contract (a permutation, ordered by the
  comparator) is used in the proofs.
-/

/-! ## Work partition of `updateAndEvolve` (lines 141-145) -/

/-- Line 141, `int chunkSize = population / numProcesses;` (C++ integer division truncates). -/
def chunkSize (population numProcesses : Int) : Int :=
  Int.tdiv population numProcesses

/-- Line 142, `int startIndex = processId * chunkSize;`. -/
def startIndex (population numProcesses processId : Int) : Int :=
  processId * chunkSize population numProcesses

/-- Lines 143-145, `int endIndex = startIndex + chunkSize - 1;
if (processId == numProcesses - 1) endIndex = population - 1;` -/
def endIndex (population numProcesses processId : Int) : Int :=
  if processId = numProcesses - 1 then population - 1
  else startIndex population numProcesses processId + chunkSize population numProcesses - 1

/-- Index `i` is visited by `for (int i = startIndex; i <= endIndex; i++)` on rank `processId`. -/
def inShard (population numProcesses processId i : Int) : Prop :=
  startIndex population numProcesses processId ≤ i ∧ i ≤ endIndex population numProcesses processId

instance (P N r i : Int) : Decidable (inShard P N r i) := by
  unfold inShard; infer_instance

/-! ## Double-precision arithmetic used by the selection engine -/

/-- Number of binary digits of `n`, by repeated halving (`fuel` bounds the number of halvings). -/
def bitLengthAux : Nat → Nat → Nat
  | 0, _ => 0
  | fuel + 1, n => if n = 0 then 0 else bitLengthAux fuel (n / 2) + 1

/-- Number of binary digits of `n` (`0` for `n = 0`). -/
def bitLength (n : Nat) : Nat := bitLengthAux n n

/-- Number of low-order bits that do not fit in a 53-bit significand. -/
def roundShift (n : Nat) : Nat := bitLength n - 53

/-- IEEE-754 binary64 rounding (round to nearest, ties to even) of the real number `n * 2 ^ e`, for
any fixed scale `e`: the result is again expressed on the scale `2 ^ e`.  A value with at most 53
significant bits is exact; otherwise the low `roundShift n` bits are rounded away. -/
def roundToDouble (n : Nat) : Nat :=
  let s := roundShift n
  if s = 0 then n
  else
    let q := n / 2 ^ s
    let rem := n % 2 ^ s
    if 2 ^ s < 2 * rem ∨ (2 * rem = 2 ^ s ∧ q % 2 = 1) then (q + 1) * 2 ^ s else q * 2 ^ s

/-- Significand of the literal `0.2`: the binary64 value nearest to one fifth is
`7205759403792794 * 2 ^ (-55)` (bit pattern `0x3FC999999999999A`). -/
def pointTwoSignificand : Nat := 7205759403792794

/-- The expression `(int)(individuals.size()*0.2)` (line 230): the size is converted to `double`, multiplied by
the `double` `0.2` with one rounding, and truncated to `int`; a value that does not fit `int` is
undefined behaviour. -/
def eliteCount (size : Nat) : Option Nat :=
  let product := roundToDouble (roundToDouble size * pointTwoSignificand)
  let k := product / 2 ^ 55
  if k < 2 ^ 31 then some k else none

/-- A non-negative `double` returned by `randomNumber`, as the dyadic rational `num / 2 ^ exp`. -/
structure Draw where
  num : Nat
  exp : Nat
deriving DecidableEq, Repr

/-- The statement `int a = randomNumber(0.0, 1.0) * (best.size()-1);` (lines 203-204) for the
draw `r`:
`best.size()-1` is computed in `size_t` (wrapping modulo `2 ^ 64`), converted to `double`,
multiplied by `r` with one rounding, and truncated to `int`; a value that does not fit `int` is
undefined behaviour. -/
def parentIndex (r : Draw) (bestSize : Nat) : Option Nat :=
  let m := roundToDouble ((bestSize + 2 ^ 64 - 1) % 2 ^ 64)
  let k := roundToDouble (r.num * m) / 2 ^ r.exp
  if k < 2 ^ 31 then some k else none

/-! ## Data model -/

/-- Modelled from the spec: the genome class `Mlp` (`mlp/mlp.h` is not among the sources).  A
genome is an ordered weight vector and a parallel connection mask; a weight is the 64-bit object
representation of a `double`. -/
structure Mlp where
  weights : List Nat
  connections : List Bool
deriving DecidableEq, Repr

/-- Modelled from the spec: `numWeights() -> int`, the topology size, which is the length of the
weight vector. -/
def Mlp.getNumWeights (m : Mlp) : Nat := m.weights.length

/-- Modelled from the spec: `getWeights() -> sequence<real>`. -/
def Mlp.getWeights (m : Mlp) : List Nat := m.weights

/-- Modelled from the spec: `setWeights(sequence<real>)` "fails if length ≠ numWeights"; a failure
is the result `none`. -/
def Mlp.setWeights (m : Mlp) (w : List Nat) : Option Mlp :=
  if w.length = m.getNumWeights then some { m with weights := w } else none

/-- Modelled from the spec: `getConnections() -> sequence<bool>`. -/
def Mlp.getConnections (m : Mlp) : List Bool := m.connections

/-- Modelled from the spec: `setConnections(sequence<bool>)`. -/
def Mlp.setConnections (m : Mlp) (c : List Bool) : Mlp := { m with connections := c }

/-- Modelled from the spec: an individual owns one genome and a scalar fitness (`individual.h`
is not among the sources; the code uses its members `mlp` and `fitness`).  A fitness value is
represented by its position in the total order of the non-NaN values of its type, which is all
that `a->fitness > b->fitness` observes. -/
structure Individual where
  mlp : Mlp
  fitness : Int
deriving DecidableEq, Repr

/-- Modelled from the spec: the external collaborators of the engine (`individual.h`,
`utils/utils.h` and the simulation are not among the sources), as oracles.

* `createRandomIndividual k`: the object built by the injected factory when it is called with `k`
  objects already allocated in the process.
* `calculateFitness`: modelled from the spec, "pure given genome + Simulation state, result cached
  as fitness".
* `randomNumber k`: the value of the `k`-th call `randomNumber(0.0, 1.0)`.
* `mate i p1 p2 child`: modelled from the spec, `mate(otherParent, outChild)` "writes into
  `outChild`'s genome"; `i` stands for the state of the random generator at the call. -/
structure Collaborators where
  createRandomIndividual : Nat → Individual
  calculateFitness : Mlp → Int
  randomNumber : Nat → Draw
  mate : Nat → Individual → Individual → Individual → Individual

/-- The members of `class Genetic` that the operations below read or write, with the memory of
the process (`heap`) in which the `Individual` objects live. -/
structure Genetic where
  population : Int
  fileName : String
  generation : Int
  /-- The vector `std::vector<Individual*> individuals`: addresses, `0` for the null pointer. -/
  individuals : List Nat
  heap : List Individual
deriving DecidableEq, Repr

/-- Constructor `Genetic::Genetic` (lines 15-23): stores its arguments, `generation = 1`. -/
def Genetic.new (population : Int) (fileName : String) : Genetic :=
  { population := population, fileName := fileName, generation := 1, individuals := [], heap := [] }

/-! ## Memory -/

/-- The read `*p`: reading through a null or dangling pointer is undefined. -/
def deref (heap : List Individual) (p : Nat) : Option Individual :=
  if p = 0 then none else heap[p - 1]?

/-- The write `*p = x`. -/
def store (heap : List Individual) (p : Nat) (x : Individual) : Option (List Individual) :=
  if p = 0 ∨ heap.length < p then none else some (heap.set (p - 1) x)

/-- The allocation `new Individual(...)`: the object is placed at the first unused address. -/
def alloc (heap : List Individual) (x : Individual) : Nat × List Individual :=
  (heap.length + 1, heap ++ [x])

/-- The loop `for (int i = lo; i < lo + count; i++) body`; it stops at the first undefined
step. -/
def forLoop {σ : Type} (body : Nat → σ → Option σ) : Nat → Nat → σ → Option σ
  | _, 0, s => some s
  | i, n + 1, s => (body i s).bind (forLoop body (i + 1) n)

/-! ## Selection engine -/

/-- Modelled from the spec: `Individual::calculateFitness()` evaluates the genome and caches the
result as the fitness; the genome is not modified. -/
def Individual.calculateFitness (c : Collaborators) (x : Individual) : Individual :=
  { x with fitness := c.calculateFitness x.mlp }

/-- The call `p->calculateFitness()`: recomputes and caches the fitness of `*p`. -/
def calculateFitnessAt (c : Collaborators) (heap : List Individual) (p : Nat) :
    Option (List Individual) :=
  (deref heap p).bind fun x => store heap p (x.calculateFitness c)

/-- The member `p->fitness`, for a valid `p`. -/
def fitnessAt (heap : List Individual) (p : Nat) : Int :=
  match deref heap p with
  | some x => x.fitness
  | none => 0

/-- The comparator `[](Individual *a, Individual *b) { return a->fitness > b->fitness; }`. -/
def fitnessGreater (heap : List Individual) (a b : Nat) : Prop :=
  fitnessAt heap a > fitnessAt heap b

instance (heap : List Individual) : DecidableRel (fitnessGreater heap) := by
  intro a b; unfold fitnessGreater; infer_instance

instance fitnessOrder_total (heap : List Individual) :
    IsTotal Nat (fun a b => ¬ fitnessGreater heap b a) :=
  ⟨fun a b => by unfold fitnessGreater; omega⟩

instance fitnessOrder_trans (heap : List Individual) :
    IsTrans Nat (fun a b => ¬ fitnessGreater heap b a) :=
  ⟨fun a b d => by unfold fitnessGreater; omega⟩

/-- The call `std::sort(individuals.begin(), individuals.end(), comp)` with the comparator above.  The
standard guarantees a permutation in which no element is ordered by `comp` before an earlier one,
and leaves the order of equivalent elements unspecified; this model inserts the elements in turn.
The comparator dereferences the elements it compares. -/
def sortByFitness (heap : List Individual) (l : List Nat) : Option (List Nat) :=
  if l.length < 2 then some l
  else if l.all (fun p => (deref heap p).isSome) then
    some (l.insertionSort (fun a b => ¬ fitnessGreater heap b a))
  else none

/-- Method `Genetic::bestIndividuals` (lines 216-231).  Returns the elite pool and the updated object
(fitness values recomputed, `individuals` sorted). -/
def Genetic.bestIndividuals (c : Collaborators) (g : Genetic) : Option (List Nat × Genetic) :=
  -- for(int i=0;i<individuals.size();i++) individuals[i]->calculateFitness();
  (forLoop (fun i h => (g.individuals[i]?).bind (calculateFitnessAt c h))
      0 g.individuals.length g.heap).bind fun heap1 =>
  -- sort(individuals.begin(), individuals.end(), ...)
  (sortByFitness heap1 g.individuals).bind fun sorted =>
  -- for(int i = 0;i<10;i++) std::cout<<individuals[i]->fitness<<"\t";
  (forLoop (fun i (u : Unit) => (sorted[i]?).bind fun p => (deref heap1 p).bind fun _ => some u)
      0 10 ()).bind fun _ =>
  -- return std::vector<Individual*>(individuals.begin(),
  --                                 individuals.begin() + ((int)(individuals.size()*0.2)));
  (eliteCount sorted.length).bind fun k =>
  if sorted.length < k then none
  else some (sorted.take k, { g with individuals := sorted, heap := heap1 })

/-- One iteration of the elitism loop of `nextGeneration` (lines 191-197), on the pair
(process memory, `newGeneration`). -/
def eliteStep (c : Collaborators) (best : List Nat) (i : Nat)
    (s : List Individual × List Nat) : Option (List Individual × List Nat) :=
  -- Individual *elite = createRandomIndividual();
  let (elite, heap1) := alloc s.1 (c.createRandomIndividual s.1.length)
  -- elite->mlp->setWeights(best[i]->mlp->getWeights());
  (best[i]?).bind fun bi =>
  (deref heap1 bi).bind fun src =>
  (deref heap1 elite).bind fun e =>
  (e.mlp.setWeights src.mlp.getWeights).bind fun m1 =>
  (store heap1 elite { e with mlp := m1 }).bind fun heap2 =>
  -- elite->mlp->setConnections(best[i]->mlp->getConnections());
  (deref heap2 bi).bind fun src2 =>
  (deref heap2 elite).bind fun e2 =>
  (store heap2 elite { e2 with mlp := e2.mlp.setConnections src2.mlp.getConnections }).bind
    fun heap3 =>
  -- newGeneration[i] = elite;
  if i < s.2.length then some (heap3, s.2.set i elite) else none

/-- One iteration of the reproduction loop of `nextGeneration` (lines 200-211). -/
def childStep (c : Collaborators) (best : List Nat) (i : Nat)
    (s : List Individual × List Nat) : Option (List Individual × List Nat) :=
  -- Individual *child = createRandomIndividual();
  let (child, heap1) := alloc s.1 (c.createRandomIndividual s.1.length)
  -- int a = randomNumber(0.0, 1.0) * (best.size()-1);
  (parentIndex (c.randomNumber (2 * i)) best.length).bind fun a =>
  -- int b = randomNumber(0.0, 1.0) * (best.size()-1);
  (parentIndex (c.randomNumber (2 * i + 1)) best.length).bind fun b =>
  -- Individual *parent1 = best[a]; Individual *parent2 = best[b];
  (best[a]?).bind fun parent1 =>
  (best[b]?).bind fun parent2 =>
  -- parent1->mate(*parent2, child);
  (deref heap1 parent1).bind fun p1 =>
  (deref heap1 parent2).bind fun p2 =>
  (deref heap1 child).bind fun ch =>
  (store heap1 child (c.mate i p1 p2 ch)).bind fun heap2 =>
  -- newGeneration[i] = child;
  if i < s.2.length then some (heap2, s.2.set i child) else none

/-- Method `Genetic::nextGeneration` (lines 185-214).  Returns `newGeneration` and the updated object. -/
def Genetic.nextGeneration (c : Collaborators) (g : Genetic) : Option (List Nat × Genetic) :=
  -- std::vector<Individual*> newGeneration(individuals.size());
  let newGeneration : List Nat := List.replicate g.individuals.length 0
  -- std::vector<Individual*> best = bestIndividuals();
  (g.bestIndividuals c).bind fun r =>
  let best := r.1
  let g1 := r.2
  -- for(int i = 0;i<best.size()/2;i++)
  (forLoop (eliteStep c best) 0 (best.length / 2) (g1.heap, newGeneration)).bind fun s1 =>
  -- for(int i = best.size()/2; i<individuals.size();i++)
  (forLoop (childStep c best) (best.length / 2) (g1.individuals.length - best.length / 2) s1).bind
    fun s2 =>
  some (s2.2, { g1 with heap := s2.1 })

/-! ## Checkpoint store -/

/-- The `n` bytes of the object representation of the unsigned value `v`, least significant byte
first (the host is little-endian; the round trip does not depend on the byte order). -/
def toBytes : Nat → Nat → List Nat
  | 0, _ => []
  | n + 1, v => (v % 256) :: toBytes n (v / 256)

/-- The unsigned value whose object representation is the given bytes.  A byte is a `Nat`; only
its value modulo 256 is read. -/
def ofBytes : List Nat → Nat
  | [] => 0
  | b :: bs => b % 256 + 256 * ofBytes bs

/-- Object representation of an `int` (32 bits, two's complement); a wider value is narrowed. -/
def intToBytes (x : Int) : List Nat := toBytes 4 (x % 2 ^ 32).toNat

/-- The `int` whose object representation is the given four bytes. -/
def bytesToInt (bs : List Nat) : Int :=
  let u : Nat := ofBytes bs % 2 ^ 32
  if u < 2 ^ 31 then (u : Int) else (u : Int) - 2 ^ 32

/-- Object representations of a vector of `double`, 8 bytes each. -/
def encodeDoubles : List Nat → List Nat
  | [] => []
  | w :: ws => toBytes 8 w ++ encodeDoubles ws

/-- The `n` doubles whose object representations fill the given buffer. -/
def decodeDoubles : Nat → List Nat → List Nat
  | 0, _ => []
  | n + 1, bs => ofBytes (bs.take 8) :: decodeDoubles n (bs.drop 8)

/-- The test `temp[j] > 0` for a `char` holding the byte `b` (`char` is signed on the x86-64 target: the
bytes 128..255 are negative). -/
def charIsPositive (b : Nat) : Bool := decide (0 < b % 256 ∧ b % 256 < 128)

/-- The conversion `bool -> char` made by `std::copy` into an `ostreambuf_iterator<char>`. -/
def boolToChar (b : Bool) : Nat := if b then 1 else 0

/-- An open `std::ifstream`: the bytes not yet read, and whether the stream is still `good()`. -/
structure IStream where
  data : List Nat
  good : Bool
deriving DecidableEq, Repr

/-- The call `ifs.read(buf, n)` on a buffer of `n = old.length` bytes currently holding `old`.  On a stream
that is not good nothing is read.  If fewer than `n` bytes remain, those are stored at the start
of the buffer, the rest of the buffer keeps its contents and the stream fails.  Returns the
buffer and the stream. -/
def IStream.read (s : IStream) (old : List Nat) : List Nat × IStream :=
  if s.good = false then (old, s)
  else if old.length ≤ s.data.length then
    (s.data.take old.length, { s with data := s.data.drop old.length })
  else (s.data ++ old.drop s.data.length, { data := [], good := false })

/-- One iteration of the loop of `load` (lines 81-100), on the triple
(stream, process memory, `individuals`). -/
def loadStep (c : Collaborators) (i : Nat) (s : IStream × List Individual × List Nat) :
    Option (IStream × List Individual × List Nat) :=
  -- individuals[i] = createRandomIndividual();
  let (p, heap1) := alloc s.2.1 (c.createRandomIndividual s.2.1.length)
  if i < s.2.2.length then
    let individuals1 := s.2.2.set i p
    -- Mlp* mlp = individuals[i]->mlp; int numWeights = mlp->getNumWeights();
    (deref heap1 p).bind fun x =>
    let numWeights := x.mlp.getNumWeights
    -- std::vector<double> weights(numWeights);
    -- ifs.read(reinterpret_cast<char*>(&weights[0]), sizeof(double)*weights.size());
    let r1 := s.1.read (List.replicate (8 * numWeights) 0)
    let weights := decodeDoubles numWeights r1.1
    -- mlp->setWeights(weights);
    (x.mlp.setWeights weights).bind fun m1 =>
    (store heap1 p { x with mlp := m1 }).bind fun heap2 =>
    -- std::vector<bool> connections(numWeights); std::vector<char> temp(numWeights);
    -- ifs.read(reinterpret_cast<char*>(&temp[0]), sizeof(char)*connections.size());
    let r2 := r1.2.read (List.replicate numWeights 0)
    -- connections[j] = temp[j] > 0;
    let connections := r2.1.map charIsPositive
    -- mlp->setConnections(connections);
    (deref heap2 p).bind fun x2 =>
    (store heap2 p { x2 with mlp := x2.mlp.setConnections connections }).bind fun heap3 =>
    some (r2.2, heap3, individuals1)
  else none

/-- Method `Genetic::load` (lines 60-109).  `file` is the content of the file named `fileName`, or `none`
when the file cannot be opened.  Returns the result of `load` and the updated object;
`individuals.resize(population)` with a negative `population` throws `std::length_error`. -/
def Genetic.load (c : Collaborators) (g : Genetic) (file : Option (List Nat)) :
    Option (Bool × Genetic) :=
  -- if(fileName.empty()) return false;
  if g.fileName = "" then some (false, g)
  else
    match file with
    -- if(ifs.is_open()) ... else: return false;
    | none => some (false, g)
    | some bytes =>
      let ifs : IStream := { data := bytes, good := true }
      -- ifs.read(reinterpret_cast<char*>(&generation), sizeof(generation));
      let r1 := ifs.read (intToBytes g.generation)
      let generation := bytesToInt r1.1
      -- ifs.read(reinterpret_cast<char*>(&population), sizeof(population));
      let r2 := r1.2.read (intToBytes g.population)
      let population := bytesToInt r2.1
      -- individuals.clear(); individuals.resize(population);
      if population < 0 then none
      else
        -- for(int i =0;i<individuals.size();i++)
        (forLoop (loadStep c) 0 population.toNat
            (r2.2, g.heap, List.replicate population.toNat 0)).bind fun s =>
        -- ifs.close(); return true;
        some (true, { g with generation := generation, population := population,
                             individuals := s.2.2, heap := s.2.1 })

/-- One iteration of the loop of `save` (lines 122-129), on the bytes written so far. -/
def saveStep (g : Genetic) (i : Nat) (out : List Nat) : Option (List Nat) :=
  (g.individuals[i]?).bind fun p =>
  (deref g.heap p).bind fun x =>
  -- of.write(reinterpret_cast<char*>(&weights[0]), sizeof(double)*weights.size());
  let out1 := out ++ encodeDoubles x.mlp.getWeights
  -- std::copy(connections.begin(), connections.end(), std::ostreambuf_iterator<char>(of));
  some (out1 ++ x.mlp.getConnections.map boolToChar)

/-- Method `Genetic::save` (lines 111-132).  `opens` tells whether the output file can be opened, `file`
is the previous content of the file; returns its new content. -/
def Genetic.save (g : Genetic) (opens : Bool) (file : Option (List Nat)) :
    Option (Option (List Nat)) :=
  -- if(fileName.empty()) return;
  if g.fileName = "" then some file
  -- if(of.is_open())
  else if opens = false then some file
  else
    -- int individualsSize = individuals.size();
    -- of.write(&generation, sizeof generation); of.write(&individualsSize, sizeof individualsSize);
    let header := intToBytes g.generation ++ intToBytes (g.individuals.length : Int)
    (forLoop (saveStep g) 0 g.individuals.length header).bind fun out => some (some out)

/-- One iteration of the genesis loop of `initialize` (lines 51-54), on the pair
(process memory, `individuals`). -/
def genesisStep (c : Collaborators) (i : Nat) (s : List Individual × List Nat) :
    Option (List Individual × List Nat) :=
  -- individuals[i] = createRandomIndividual();
  let (p, heap1) := alloc s.1 (c.createRandomIndividual s.1.length)
  if i < s.2.length then some (heap1, s.2.set i p) else none

/-- Method `Genetic::initialize` (lines 43-58); the start time and the call `simulation->init` do not
touch the members modelled here. -/
def Genetic.initialize (c : Collaborators) (g : Genetic) (file : Option (List Nat)) :
    Option Genetic :=
  (g.load c file).bind fun r =>
  -- if(!load())
  if r.1 = true then some r.2
  else
    -- individuals.clear(); individuals.resize(population);
    if r.2.population < 0 then none
    else
      -- for(int i =0;i<population;i++)
      (forLoop (genesisStep c) 0 r.2.population.toNat
          (r.2.heap, List.replicate r.2.population.toNat 0)).bind fun s =>
      some { r.2 with heap := s.1, individuals := s.2 }

/-! ## Distribution coordinator -/

/-- The evaluation loop of `updateAndEvolve` on the rank `processId` of `numProcesses`
(lines 141-151): `for (int i = startIndex; i <= endIndex; i++) individuals[i]->calculateFitness();` -/
def evaluateShard (c : Collaborators) (numProcesses processId : Int) (g : Genetic) :
    Option Genetic :=
  let lo := startIndex g.population numProcesses processId
  let hi := endIndex g.population numProcesses processId
  if hi < lo then some g
  else if lo < 0 then none
  else
    (forLoop (fun i h => (g.individuals[i]?).bind (calculateFitnessAt c h))
      lo.toNat (hi - lo + 1).toNat g.heap).bind fun h => some { g with heap := h }

/-- The block executed by rank 0 between the two barriers (lines 157-175); the increment of an
`int` at its largest value is undefined. -/
def evolve (c : Collaborators) (g : Genetic) : Option Genetic :=
  -- std::sort(individuals.begin(), individuals.end(), ...);
  (sortByFitness g.heap g.individuals).bind fun sorted =>
  -- std::vector<Individual*> best = bestIndividuals();
  (Genetic.bestIndividuals c { g with individuals := sorted }).bind fun r1 =>
  -- std::vector<Individual*> nextGen = nextGeneration();
  (r1.2.nextGeneration c).bind fun r2 =>
  -- individuals = nextGen; generation++;
  if r2.2.generation = 2 ^ 31 - 1 then none
  else some { r2.2 with individuals := r2.1, generation := r2.2.generation + 1 }

/-- Object representation of an array of pointers (8 bytes each on the LP64 target). -/
def pointerBytes : List Nat → List Nat
  | [] => []
  | p :: ps => toBytes 8 p ++ pointerBytes ps

/-- The `n` pointers whose object representations fill the given buffer. -/
def bytesToPointers : Nat → List Nat → List Nat
  | 0, _ => []
  | n + 1, bs => ofBytes (bs.take 8) :: bytesToPointers n (bs.drop 8)

/-- What the root sends in `MPI_Bcast(&individuals[0], population, MPI_INT, 0, MPI_COMM_WORLD)`
(line 181): `population` elements of type `MPI_INT`, that is the first `4 * population` bytes of
the array of pointers.  A negative count, or a count that runs past the array, is an error. -/
def bcastPayload (g : Genetic) : Option (List Nat) :=
  if g.population < 0 ∨ (pointerBytes g.individuals).length < 4 * g.population.toNat then none
  else some ((pointerBytes g.individuals).take (4 * g.population.toNat))

/-- What a rank other than the root does in the same `MPI_Bcast`: the payload overwrites the
first `4 * population` bytes of its own array of pointers. -/
def bcastReceive (g : Genetic) (payload : List Nat) : Option Genetic :=
  if g.population < 0 ∨ (pointerBytes g.individuals).length < 4 * g.population.toNat
      ∨ payload.length ≠ 4 * g.population.toNat then none
  else
    let buffer := payload ++ (pointerBytes g.individuals).drop (4 * g.population.toNat)
    some { g with individuals := bytesToPointers g.individuals.length buffer }

/-- The evaluation phase on the ranks `r, r+1, ...` holding the given states. -/
def evaluateAll (c : Collaborators) (numProcesses : Int) : Nat → List Genetic → Option (List Genetic)
  | _, [] => some []
  | r, g :: gs =>
    (evaluateShard c numProcesses r g).bind fun g' =>
    (evaluateAll c numProcesses (r + 1) gs).bind fun gs' => some (g' :: gs')

/-- The receiving side of the broadcast on every rank other than the root. -/
def receiveAll (payload : List Nat) : List Genetic → Option (List Genetic)
  | [] => some []
  | g :: gs =>
    (bcastReceive g payload).bind fun g' =>
    (receiveAll payload gs).bind fun gs' => some (g' :: gs')

/-- Method `Genetic::updateAndEvolve` (lines 134-182) executed once by all the ranks of
`MPI_COMM_WORLD`; `ranks[r]` is the engine of rank `r`, each in its own process memory.  The two
barriers separate the three phases: every rank evaluates its shard, rank 0 evolves, rank 0
broadcasts. -/
def updateAndEvolve (c : Collaborators) (ranks : List Genetic) : Option (List Genetic) :=
  (evaluateAll c ranks.length 0 ranks).bind fun ranks1 =>
  match ranks1 with
  | [] => some []
  | root :: others =>
    (evolve c root).bind fun root' =>
    (bcastPayload root').bind fun payload =>
    (receiveAll payload others).bind fun others' => some (root' :: others')

/-! ## Specification vocabulary -/

/-- What `nextGeneration` puts in slot `j` of the new generation, as a property of the object
`x` found there: below `best.size()/2` a copy of the genome of `*best[j]`, from there on the
result of `mate` on two members of `best` chosen by the two draws of the slot. -/
def SlotSpec (c : Collaborators) (heap1 : List Individual) (best : List Nat) (j : Nat)
    (x : Individual) : Prop :=
  if j < best.length / 2 then
    ∃ bi src, best[j]? = some bi ∧ deref heap1 bi = some src ∧ x.mlp = src.mlp
  else
    ∃ a b pa pb p1 p2,
      parentIndex (c.randomNumber (2 * j)) best.length = some a ∧
      parentIndex (c.randomNumber (2 * j + 1)) best.length = some b ∧
      best[a]? = some pa ∧ best[b]? = some pb ∧
      deref heap1 pa = some p1 ∧ deref heap1 pb = some p2 ∧
      x = c.mate j p1 p2 (c.createRandomIndividual (heap1.length + j))

/-- Loop invariant of `nextGeneration` at index `i`: the memory is the memory at loop entry
followed by the `i` objects created so far, slot `j < i` holds the address of the `j`-th of them,
the other slots are still null, and every created object is as `SlotSpec` says. -/
def NextGenInv (c : Collaborators) (heap1 : List Individual) (best : List Nat) (P : Nat) (i : Nat)
    (s : List Individual × List Nat) : Prop :=
  ∃ L : List Individual, s.1 = heap1 ++ L ∧ L.length = i ∧
    s.2 = (List.range i).map (fun j => heap1.length + j + 1) ++ List.replicate (P - i) 0 ∧
    ∀ j x, L[j]? = some x → SlotSpec c heap1 best j x

/-- Every pointer of the population designates a live object. -/
def Genetic.Live (g : Genetic) : Prop :=
  ∀ p ∈ g.individuals, (deref g.heap p).isSome

instance (g : Genetic) : Decidable g.Live := by
  unfold Genetic.Live; infer_instance

/-- Every pointer of the population designates a live object whose genome has `W` weights (the
topology size of the run). -/
def Genetic.Valid (W : Nat) (g : Genetic) : Prop :=
  ∀ p ∈ g.individuals, (deref g.heap p).map (fun x => x.mlp.weights.length) = some W

instance (W : Nat) (g : Genetic) : Decidable (g.Valid W) := by
  unfold Genetic.Valid; infer_instance

/-- The injected factory builds individuals of topology size `W`. -/
def FactoryTopology (W : Nat) (c : Collaborators) : Prop :=
  ∀ k, (c.createRandomIndividual k).mlp.weights.length = W

/-- Every value returned by `randomNumber(0.0, 1.0)` lies in `[0, 1]`. -/
def DrawsInUnitInterval (c : Collaborators) : Prop :=
  ∀ k, (c.randomNumber k).num ≤ 2 ^ (c.randomNumber k).exp

/-- An individual that a checkpoint of topology size `W` can hold: `W` weights, each a 64-bit
pattern, and `W` connection flags. -/
def Storable (W : Nat) (x : Individual) : Prop :=
  x.mlp.weights.length = W ∧ x.mlp.connections.length = W ∧ ∀ w ∈ x.mlp.weights, w < 2 ^ 64

instance (W : Nat) (x : Individual) : Decidable (Storable W x) := by
  unfold Storable; infer_instance

/-- The pointer `p` designates a live object that a checkpoint of topology size `W` can hold. -/
def storableAt (W : Nat) (heap : List Individual) (p : Nat) : Bool :=
  match deref heap p with
  | some x => decide (Storable W x)
  | none => false

/-- Every pointer of the population designates a live, storable individual. -/
def Genetic.Storable (W : Nat) (g : Genetic) : Prop :=
  ∀ p ∈ g.individuals, storableAt W g.heap p = true

instance (W : Nat) (g : Genetic) : Decidable (g.Storable W) := by
  unfold Genetic.Storable; infer_instance

/-- The genomes of the population, in order (`none` at an invalid pointer). -/
def Genetic.genomes (g : Genetic) : List (Option Mlp) :=
  g.individuals.map fun p => (deref g.heap p).map fun x => x.mlp

/-- The checkpoint block of one individual: its weights, then its connection flags. -/
def encodeIndividual (x : Individual) : List Nat :=
  encodeDoubles x.mlp.weights ++ x.mlp.connections.map boolToChar

/-- The checkpoint payload of a sequence of individuals. -/
def encodePopulation : List Individual → List Nat
  | [] => []
  | x :: xs => encodeIndividual x ++ encodePopulation xs

/-- The value that the first read of `load` leaves in `generation`, for an opened file holding
`bytes`. -/
def headerGeneration (g : Genetic) (bytes : List Nat) : Int :=
  bytesToInt (IStream.read { data := bytes, good := true } (intToBytes g.generation)).1

/-- The value that the second read of `load` leaves in `population`, for an opened file holding
`bytes`. -/
def headerPopulation (g : Genetic) (bytes : List Nat) : Int :=
  bytesToInt (IStream.read (IStream.read { data := bytes, good := true }
    (intToBytes g.generation)).2 (intToBytes g.population)).1

/-- The object `x` with the genome that the loop of `load` gives it when no byte is left to read:
the value-initialized buffers, that is all-zero weights and an all-false mask. -/
def zeroGenome (x : Individual) : Individual :=
  { x with mlp := { weights := List.replicate x.mlp.weights.length 0,
                    connections := List.replicate x.mlp.weights.length false } }

/-- A sample set of collaborators: the factory builds a one-weight genome holding the allocation
count, the fitness is the first weight, every draw is `1/2`, and a child takes the weights of its
first parent and the connection mask of its second. -/
def sampleCollaborators : Collaborators where
  createRandomIndividual := fun k =>
    { mlp := { weights := [k], connections := [true] }, fitness := 0 }
  calculateFitness := fun m => (m.weights.headD 0 : Nat)
  randomNumber := fun _ => { num := 1, exp := 1 }
  mate := fun _ p1 p2 child =>
    { child with mlp := { weights := p1.mlp.weights, connections := p2.mlp.connections } }

/-- A sample engine state: `n` individuals built by the sample factory, at addresses `1..n`. -/
def samplePopulation (n : Nat) : Genetic :=
  { population := n, fileName := "", generation := 1,
    individuals := (List.range n).map (· + 1),
    heap := (List.range n).map sampleCollaborators.createRandomIndividual }

/-- A sample engine state to checkpoint: generation 5, two individuals of topology size 3 (the
weights are the bit patterns of `1.0`, `-3.0`, `0.0` and of a NaN, a denormal and `2.5`). -/
def sampleCheckpointState : Genetic :=
  { population := 2, fileName := "generation.bin", generation := 5,
    individuals := [1, 2],
    heap :=
      [ { mlp := { weights := [4607182418800017408, 13837309855095848960, 0],
                   connections := [true, false, true] }, fitness := 3 },
        { mlp := { weights := [18446744073709551615, 1, 4612811918334230528],
                   connections := [false, false, true] }, fitness := 7 } ] }

/-- Sample collaborators whose factory builds genomes of topology size 3. -/
def sampleCollaborators3 : Collaborators where
  createRandomIndividual := fun k =>
    { mlp := { weights := [k, k, k], connections := [true, true, true] }, fitness := 0 }
  calculateFitness := sampleCollaborators.calculateFitness
  randomNumber := sampleCollaborators.randomNumber
  mate := sampleCollaborators.mate

/-! ## Lemmas: partition -/

theorem chunkSize_spec (P N : Int) (hP : 0 ≤ P) (hN : 1 ≤ N) :
    0 ≤ chunkSize P N ∧ chunkSize P N * N ≤ P ∧ P < (chunkSize P N + 1) * N := by
  unfold chunkSize
  rw [Int.tdiv_eq_ediv hP (by omega)]
  refine ⟨Int.ediv_nonneg hP (by omega), ?_, ?_⟩
  · exact Int.ediv_mul_le P (by omega)
  · have := Int.lt_ediv_add_one_mul_self P (show 0 < N by omega)
    linarith

theorem shard_unique_aux (c i r s : Int) (h1 : r * c ≤ i) (h2 : i < r * c + c)
    (h3 : s * c ≤ i) (h4 : i < s * c + c) : r = s := by
  have hc : 0 < c := by linarith
  rcases lt_trichotomy r s with h | h | h
  · exfalso
    have : (r + 1) * c ≤ s * c := by
      apply mul_le_mul_of_nonneg_right (by omega) hc.le
    nlinarith
  · exact h
  · exfalso
    have : (s + 1) * c ≤ r * c := by
      apply mul_le_mul_of_nonneg_right (by omega) hc.le
    nlinarith

/-! ## Lemmas: rounding -/

theorem bitLengthAux_le_iff (fuel n b : Nat) (h : n ≤ fuel) :
    bitLengthAux fuel n ≤ b ↔ n < 2 ^ b := by
  induction fuel generalizing n b with
  | zero =>
    have : n = 0 := by omega
    subst this
    simp [bitLengthAux]
  | succ fuel ih =>
    unfold bitLengthAux
    by_cases hn : n = 0
    · subst hn; simp
    · rw [if_neg hn]
      cases b with
      | zero => simp; omega
      | succ b =>
        rw [Nat.add_le_add_iff_right, ih (n / 2) b (by omega), pow_succ]
        exact Nat.div_lt_iff_lt_mul (by norm_num)

theorem bitLength_le_iff (n b : Nat) : bitLength n ≤ b ↔ n < 2 ^ b :=
  bitLengthAux_le_iff n n b le_rfl

theorem roundShift_le (n k : Nat) (h : n < 2 ^ (53 + k)) : roundShift n ≤ k := by
  have := (bitLength_le_iff n (53 + k)).2 h
  unfold roundShift; omega

theorem roundToDouble_of_lt (n : Nat) (h : n < 2 ^ 53) : roundToDouble n = n := by
  have := roundShift_le n 0 (by simpa using h)
  simp [roundToDouble, Nat.le_zero.1 this]

/-- The rounded value is the argument itself, or one of the two neighbouring multiples of
`2 ^ roundShift n` when the argument is not such a multiple. -/
theorem roundToDouble_cases (n : Nat) :
    roundToDouble n = n ∨
      (n % 2 ^ roundShift n ≠ 0 ∧
        (roundToDouble n = (n / 2 ^ roundShift n) * 2 ^ roundShift n ∨
         roundToDouble n = (n / 2 ^ roundShift n + 1) * 2 ^ roundShift n)) := by
  unfold roundToDouble
  simp only
  by_cases hs : roundShift n = 0
  · simp [hs]
  · rw [if_neg hs]
    by_cases hr : n % 2 ^ roundShift n = 0
    · left
      have h2 : 0 < 2 ^ roundShift n := by positivity
      have hne : ¬ (2 ^ roundShift n < 2 * (n % 2 ^ roundShift n) ∨
          (2 * (n % 2 ^ roundShift n) = 2 ^ roundShift n ∧ n / 2 ^ roundShift n % 2 = 1)) := by
        rw [hr]; omega
      rw [if_neg hne]
      have := Nat.div_add_mod n (2 ^ roundShift n)
      rw [hr] at this
      rw [Nat.mul_comm]; omega
    · right
      refine ⟨hr, ?_⟩
      split_ifs
      · right; rfl
      · left; rfl

/-- Rounding never crosses a representable value from below. -/
theorem roundToDouble_le_of_le (n T : Nat) (hT : 2 ^ roundShift n ∣ T) (h : n ≤ T) :
    roundToDouble n ≤ T := by
  obtain ⟨t, rfl⟩ := hT
  have hpos : 0 < 2 ^ roundShift n := by positivity
  have hdm := Nat.div_add_mod n (2 ^ roundShift n)
  have hml := Nat.mod_lt n hpos
  rcases roundToDouble_cases n with h1 | ⟨hr, h1 | h1⟩
  · omega
  · rw [h1, Nat.mul_comm]
    calc 2 ^ roundShift n * (n / 2 ^ roundShift n) ≤ n := Nat.mul_div_le _ _
      _ ≤ _ := h
  · rw [h1, Nat.mul_comm]
    apply Nat.mul_le_mul_left
    by_contra hlt
    push_neg at hlt
    have : t ≤ n / 2 ^ roundShift n := by omega
    have : 2 ^ roundShift n * t ≤ 2 ^ roundShift n * (n / 2 ^ roundShift n) :=
      Nat.mul_le_mul_left _ this
    have hrpos : 0 < n % 2 ^ roundShift n := Nat.pos_of_ne_zero hr
    omega

/-- Rounding never crosses a representable value from above. -/
theorem le_roundToDouble_of_le (n T : Nat) (hT : 2 ^ roundShift n ∣ T) (h : T ≤ n) :
    T ≤ roundToDouble n := by
  obtain ⟨t, rfl⟩ := hT
  have hpos : 0 < 2 ^ roundShift n := by positivity
  have ht : t ≤ n / 2 ^ roundShift n := by
    rw [Nat.le_div_iff_mul_le hpos, Nat.mul_comm]; exact h
  rw [Nat.mul_comm]
  rcases roundToDouble_cases n with h2 | ⟨_, h2 | h2⟩
  · rw [h2, Nat.mul_comm]; exact h
  · rw [h2]; exact Nat.mul_le_mul_right _ ht
  · rw [h2]; exact Nat.mul_le_mul_right _ (by omega)

/-- Rounding to nearest moves the value up by at most half a unit in the last place. -/
theorem roundToDouble_le_add_half (n : Nat) :
    2 * roundToDouble n ≤ 2 * n + 2 ^ roundShift n := by
  unfold roundToDouble
  simp only
  have hdm := Nat.div_add_mod n (2 ^ roundShift n)
  by_cases hs : roundShift n = 0
  · simp [hs]
  · rw [if_neg hs]
    split_ifs with hc
    · rw [Nat.add_mul, Nat.mul_comm (n / _)]
      rcases hc with hc | ⟨hc, _⟩ <;> omega
    · rw [Nat.mul_comm (n / _)]; omega

/-- On every size an `int` can hold, `(int)(size*0.2)` is `size / 5`. -/
theorem eliteCount_eq (P : Nat) (hP : P < 2 ^ 31) : eliteCount P = some (P / 5) := by
  have hconv : roundToDouble P = P := roundToDouble_of_lt P (by omega)
  have hM : pointTwoSignificand = 7205759403792794 := rfl
  have hn : P * pointTwoSignificand < 2 ^ (53 + 31) := by
    rw [hM]; norm_num; omega
  have hs := roundShift_le _ 31 hn
  have hdiv55 : (2:Nat) ^ roundShift (P * pointTwoSignificand) ∣ 2 ^ 55 :=
    Nat.pow_dvd_pow 2 (by omega)
  have hdiv31 : (2:Nat) ^ roundShift (P * pointTwoSignificand) ∣ 2 ^ 31 :=
    Nat.pow_dvd_pow 2 hs
  have hlo : (P / 5) * 2 ^ 55 ≤ roundToDouble (P * pointTwoSignificand) := by
    apply le_roundToDouble_of_le
    · exact Dvd.dvd.mul_left hdiv55 _
    · rw [hM]; norm_num; omega
  have hhi : roundToDouble (P * pointTwoSignificand) ≤ (P / 5 + 1) * 2 ^ 55 - 2 ^ 31 := by
    apply roundToDouble_le_of_le
    · apply Nat.dvd_sub'
      · exact Dvd.dvd.mul_left hdiv55 _
      · exact hdiv31
    · rw [hM]; norm_num; omega
  have hk : roundToDouble (P * pointTwoSignificand) / 2 ^ 55 = P / 5 := by
    apply Nat.div_eq_of_lt_le
    · exact hlo
    · have : (P / 5 + 1) * 2 ^ 55 - 2 ^ 31 < (P / 5 + 1) * 2 ^ 55 := by
        norm_num
      exact lt_of_le_of_lt hhi this
  unfold eliteCount
  simp only [hconv, hk]
  rw [if_pos (by omega)]

/-- A draw in `[0, 1]` always yields an index of the elite pool. -/
theorem parentIndex_lt (r : Draw) (E : Nat) (hE : 1 ≤ E) (hE2 : E ≤ 2 ^ 31)
    (hr : r.num ≤ 2 ^ r.exp) : ∃ a, parentIndex r E = some a ∧ a < E := by
  have hm : (E + 2 ^ 64 - 1) % 2 ^ 64 = E - 1 := by omega
  have hconv : roundToDouble (E - 1) = E - 1 := roundToDouble_of_lt _ (by omega)
  have hle : r.num * (E - 1) ≤ (E - 1) * 2 ^ r.exp := by
    rw [Nat.mul_comm]; exact Nat.mul_le_mul_left _ hr
  have hlt : r.num * (E - 1) < 2 ^ (53 + r.exp) := by
    have : (E - 1) * 2 ^ r.exp < 2 ^ 53 * 2 ^ r.exp :=
      Nat.mul_lt_mul_of_lt_of_le (by omega) le_rfl (by positivity)
    rw [pow_add]; omega
  have hs := roundShift_le _ _ hlt
  have hround : roundToDouble (r.num * (E - 1)) ≤ (E - 1) * 2 ^ r.exp := by
    apply roundToDouble_le_of_le _ _ _ hle
    exact Dvd.dvd.mul_left (Nat.pow_dvd_pow 2 hs) _
  have hk : roundToDouble (r.num * (E - 1)) / 2 ^ r.exp ≤ E - 1 := by
    apply Nat.div_le_of_le_mul
    rw [Nat.mul_comm (2 ^ r.exp)]; exact hround
  refine ⟨roundToDouble (r.num * (E - 1)) / 2 ^ r.exp, ?_, by omega⟩
  unfold parentIndex
  simp only [hm, hconv]
  rw [if_pos (by omega)]

/-! ## Lemmas: loops and memory -/

/-- Invariant rule for `forLoop`: a loop whose every step is defined and preserves the invariant
runs to completion and establishes the invariant at the exit index. -/
theorem forLoop_invariant {σ : Type} (body : Nat → σ → Option σ) (Inv : Nat → σ → Prop)
    (n lo : Nat) (s : σ) (h0 : Inv lo s)
    (hstep : ∀ i t, lo ≤ i → i < lo + n → Inv i t → ∃ t', body i t = some t' ∧ Inv (i + 1) t') :
    ∃ s', forLoop body lo n s = some s' ∧ Inv (lo + n) s' := by
  induction n generalizing lo s with
  | zero => exact ⟨s, rfl, h0⟩
  | succ n ih =>
    obtain ⟨t, ht, hInv⟩ := hstep lo s le_rfl (by omega) h0
    obtain ⟨s', hs', hI⟩ := ih (lo + 1) t hInv (fun i u h1 h2 hu => hstep i u (by omega) (by omega) hu)
    refine ⟨s', ?_, ?_⟩
    · simp only [forLoop, ht, Option.some_bind]; exact hs'
    · have : lo + (n + 1) = lo + 1 + n := by omega
      rw [this]; exact hI

/-- A loop with an undefined step at index `k`, whatever the state, is undefined. -/
theorem forLoop_eq_none {σ : Type} (body : Nat → σ → Option σ) (k : Nat)
    (hk : ∀ t, body k t = none) (n lo : Nat) (s : σ) (h1 : lo ≤ k) (h2 : k < lo + n) :
    forLoop body lo n s = none := by
  induction n generalizing lo s with
  | zero => omega
  | succ n ih =>
    simp only [forLoop]
    by_cases hlo : lo = k
    · subst hlo; rw [hk]; rfl
    · cases hb : body lo s with
      | none => rfl
      | some t => exact ih (lo + 1) t (by omega) (by omega)

theorem deref_eq_some {heap : List Individual} {p : Nat} {x : Individual}
    (h : deref heap p = some x) : 0 < p ∧ p ≤ heap.length ∧ heap[p - 1]? = some x := by
  unfold deref at h
  split_ifs at h with hp
  have hlt := (List.getElem?_eq_some_iff.1 h).1
  exact ⟨by omega, by omega, h⟩

theorem deref_append_left (heap L : List Individual) (p : Nat) (hp : p ≤ heap.length) :
    deref (heap ++ L) p = deref heap p := by
  unfold deref
  split_ifs with h0
  · rfl
  · exact List.getElem?_append_left (by omega)

theorem deref_append_new (heap L : List Individual) (j : Nat) :
    deref (heap ++ L) (heap.length + j + 1) = L[j]? := by
  unfold deref
  rw [if_neg (by omega)]
  rw [List.getElem?_append_right (by omega)]
  congr 1; omega

theorem store_eq_some {heap : List Individual} {p : Nat} {x : Individual} (y : Individual)
    (h : deref heap p = some x) : store heap p y = some (heap.set (p - 1) y) := by
  obtain ⟨h1, h2, _⟩ := deref_eq_some h
  unfold store
  rw [if_neg (by omega)]

theorem deref_set (heap : List Individual) (p q : Nat) (y : Individual)
    (hp : 0 < p) (hp2 : p ≤ heap.length) :
    deref (heap.set (p - 1) y) q = if q = p then some y else deref heap q := by
  unfold deref
  by_cases hq : q = 0
  · subst hq
    simp only [if_true]
    rw [if_neg (by omega)]
  · rw [if_neg hq, if_neg hq, List.getElem?_set]
    by_cases hqp : q = p
    · subst hqp
      simp only [if_true]
      rw [if_pos (by omega)]
    · rw [if_neg (by omega), if_neg hqp]

theorem set_append_last (heap : List Individual) (x y : Individual) :
    (heap ++ [x]).set (heap.length + 1 - 1) y = heap ++ [y] := by
  simp

/-! ## Lemmas: `bestIndividuals` -/

theorem calculateFitness_idem (c : Collaborators) (x : Individual) :
    (x.calculateFitness c).calculateFitness c = x.calculateFitness c := rfl

theorem calculateFitness_mlp (c : Collaborators) (x : Individual) :
    (x.calculateFitness c).mlp = x.mlp := rfl

/-- The re-evaluation loop of `bestIndividuals` completes when every pointer of the population is
valid; it replaces the fitness of exactly the individuals of the population and nothing else. -/
theorem fitnessLoop_spec (c : Collaborators) (inds : List Nat) (heap : List Individual)
    (hv : ∀ p ∈ inds, (deref heap p).isSome) :
    ∃ heap1, forLoop (fun i h => (inds[i]?).bind (calculateFitnessAt c h)) 0 inds.length heap
        = some heap1 ∧ heap1.length = heap.length ∧
      ∀ p, deref heap1 p =
        if p ∈ inds then (deref heap p).map (Individual.calculateFitness c) else deref heap p := by
  have key := forLoop_invariant (fun i h => (inds[i]?).bind (calculateFitnessAt c h))
    (fun i h => h.length = heap.length ∧ ∀ p, deref h p =
        if p ∈ inds.take i then (deref heap p).map (Individual.calculateFitness c)
        else deref heap p)
    inds.length 0 heap ⟨rfl, fun p => by simp⟩ ?_
  · obtain ⟨heap1, h1, h2, h3⟩ := key
    refine ⟨heap1, h1, h2, ?_⟩
    intro p
    rw [h3 p, Nat.zero_add, List.take_length]
  · intro i h _ hi ⟨hlen, hInv⟩
    have hi' : i < inds.length := by omega
    have hget : inds[i]? = some inds[i] := List.getElem?_eq_getElem hi'
    have hmem : inds[i] ∈ inds := List.getElem_mem hi'
    obtain ⟨x, hx⟩ := Option.isSome_iff_exists.1 (hv _ hmem)
    have hcur : ∃ y, deref h inds[i] = some y ∧ y.calculateFitness c = x.calculateFitness c := by
      rw [hInv, hx]
      split_ifs
      · exact ⟨_, rfl, rfl⟩
      · exact ⟨_, rfl, rfl⟩
    obtain ⟨y, hy, hyx⟩ := hcur
    obtain ⟨hp0, hple, _⟩ := deref_eq_some hy
    refine ⟨h.set (inds[i] - 1) (x.calculateFitness c), ?_, ?_, ?_⟩
    · simp only [hget, Option.some_bind, calculateFitnessAt, hy, hyx]
      exact store_eq_some _ hy
    · simp [hlen]
    · intro q
      rw [deref_set h _ q _ hp0 hple, List.take_succ, hget]
      simp only [Option.toList_some, List.mem_append, List.mem_singleton]
      by_cases hq : q = inds[i]
      · subst hq
        simp [hx]
      · simp only [hq, if_false, or_false]
        exact hInv q

/-- The sort completes when every pointer is valid; its result is a permutation of the input in
which fitness never increases. -/
theorem sortByFitness_spec (heap : List Individual) (l : List Nat)
    (hv : ∀ p ∈ l, (deref heap p).isSome) :
    ∃ sorted, sortByFitness heap l = some sorted ∧ sorted.Perm l ∧
      sorted.Sorted (fun a b => ¬ fitnessGreater heap b a) := by
  unfold sortByFitness
  by_cases h2 : l.length < 2
  · rw [if_pos h2]
    refine ⟨l, rfl, List.Perm.refl l, ?_⟩
    match l, h2 with
    | [], _ => exact List.sorted_nil
    | [a], _ => exact List.sorted_singleton a
  · rw [if_neg h2, if_pos (List.all_eq_true.2 hv)]
    exact ⟨_, rfl, List.perm_insertionSort _ l, List.sorted_insertionSort _ l⟩

/-- The ten reads made for the log line are defined when the vector holds at least ten valid
pointers. -/
theorem logLoop_some (heap : List Individual) (sorted : List Nat) (h10 : 10 ≤ sorted.length)
    (hv : ∀ p ∈ sorted, (deref heap p).isSome) :
    forLoop (fun i (u : Unit) => (sorted[i]?).bind fun p => (deref heap p).bind fun _ => some u)
      0 10 () = some () := by
  obtain ⟨u, hu, _⟩ := forLoop_invariant
    (fun i (u : Unit) => (sorted[i]?).bind fun p => (deref heap p).bind fun _ => some u)
    (fun _ _ => True) 10 0 () trivial (by
      intro i t _ hi _
      have hi' : i < sorted.length := by omega
      obtain ⟨x, hx⟩ := Option.isSome_iff_exists.1 (hv _ (List.getElem_mem hi'))
      exact ⟨t, by simp [List.getElem?_eq_getElem hi', hx], trivial⟩)
  exact hu

/-- With fewer than ten elements the read `individuals[9]` is out of bounds and the log loop is
undefined. -/
theorem logLoop_none (heap : List Individual) (sorted : List Nat) (h10 : sorted.length < 10) :
    forLoop (fun i (u : Unit) => (sorted[i]?).bind fun p => (deref heap p).bind fun _ => some u)
      0 10 () = none := by
  apply forLoop_eq_none _ 9 _ 10 0 () (by omega) (by omega)
  intro t
  rw [List.getElem?_eq_none (by omega)]
  rfl

theorem sortByFitness_length {heap : List Individual} {l sorted : List Nat}
    (h : sortByFitness heap l = some sorted) : sorted.length = l.length := by
  unfold sortByFitness at h
  split_ifs at h
  · cases h; rfl
  · cases h; exact List.length_insertionSort _ l

/-- Behaviour of `bestIndividuals` on a population of at least ten valid individuals. -/
theorem bestIndividuals_spec (c : Collaborators) (g : Genetic)
    (hv : ∀ p ∈ g.individuals, (deref g.heap p).isSome)
    (h10 : 10 ≤ g.individuals.length) (h31 : g.individuals.length < 2 ^ 31) :
    ∃ heap1 sorted,
      g.bestIndividuals c = some (sorted.take (g.individuals.length / 5),
        { g with individuals := sorted, heap := heap1 }) ∧
      heap1.length = g.heap.length ∧
      (∀ p, deref heap1 p =
        if p ∈ g.individuals then (deref g.heap p).map (Individual.calculateFitness c)
        else deref g.heap p) ∧
      sorted.Perm g.individuals ∧
      sorted.Sorted (fun a b => ¬ fitnessGreater heap1 b a) := by
  obtain ⟨heap1, hloop, hlen, hheap⟩ := fitnessLoop_spec c g.individuals g.heap hv
  have hv1 : ∀ p ∈ g.individuals, (deref heap1 p).isSome := by
    intro p hp
    obtain ⟨x, hx⟩ := Option.isSome_iff_exists.1 (hv p hp)
    rw [hheap p, if_pos hp, hx]; rfl
  obtain ⟨sorted, hsort, hperm, hsorted⟩ := sortByFitness_spec heap1 g.individuals hv1
  have hslen : sorted.length = g.individuals.length := hperm.length_eq
  have hvs : ∀ p ∈ sorted, (deref heap1 p).isSome := fun p hp => hv1 p (hperm.subset hp)
  have hlog := logLoop_some heap1 sorted (by omega) hvs
  have hk := eliteCount_eq sorted.length (by omega)
  refine ⟨heap1, sorted, ?_, hlen, hheap, hperm, hsorted⟩
  unfold Genetic.bestIndividuals
  simp only [hloop, hsort, hlog, hk, Option.some_bind]
  rw [if_neg (by omega), hslen]

/-- On a population of fewer than ten individuals `bestIndividuals` reads `individuals[9]` out of
bounds. -/
theorem bestIndividuals_eq_none (c : Collaborators) (g : Genetic)
    (h10 : g.individuals.length < 10) : g.bestIndividuals c = none := by
  unfold Genetic.bestIndividuals
  cases hloop : forLoop (fun i h => (g.individuals[i]?).bind (calculateFitnessAt c h))
      0 g.individuals.length g.heap with
  | none => rfl
  | some heap1 =>
    cases hsort : sortByFitness heap1 g.individuals with
    | none => simp only [Option.some_bind, hsort, Option.none_bind]
    | some sorted =>
      have hlen := sortByFitness_length hsort
      simp only [Option.some_bind, hsort, logLoop_none heap1 sorted (by omega), Option.none_bind]

/-! ## Lemmas: `nextGeneration` -/

theorem deref_append_singleton (heap : List Individual) (x : Individual) :
    deref (heap ++ [x]) (heap.length + 1) = some x := by
  have := deref_append_new heap [x] 0
  simpa using this

/-- One elitism step: a fresh object is appended to the memory, it receives the weights and the
connection mask of `*best[i]`, and its address is written to slot `i`. -/
theorem eliteStep_eq (c : Collaborators) (best : List Nat) (i : Nat) (heap : List Individual)
    (ng : List Nat) (bi : Nat) (src : Individual) (hbi : best[i]? = some bi)
    (hsrc : deref heap bi = some src)
    (hW : (c.createRandomIndividual heap.length).mlp.weights.length = src.mlp.weights.length)
    (hi : i < ng.length) :
    eliteStep c best i (heap, ng) =
      some (heap ++ [{ mlp := { weights := src.mlp.weights, connections := src.mlp.connections },
                       fitness := (c.createRandomIndividual heap.length).fitness }],
            ng.set i (heap.length + 1)) := by
  obtain ⟨_, hble, _⟩ := deref_eq_some hsrc
  have hs1 : ∀ x, deref (heap ++ [x]) bi = some src := fun x => by
    rw [deref_append_left heap [x] bi hble]; exact hsrc
  have hstore : ∀ x y, store (heap ++ [x]) (heap.length + 1) y = some (heap ++ [y]) := fun x y => by
    rw [store_eq_some y (deref_append_singleton heap x), set_append_last]
  simp only [eliteStep, alloc, hbi, Option.some_bind, hs1, deref_append_singleton,
    Mlp.setWeights, Mlp.getWeights, Mlp.getNumWeights, Mlp.setConnections, Mlp.getConnections,
    hW, if_true, hstore, if_pos hi]

/-- One reproduction step: a fresh object is appended to the memory, `mate` writes the child into
it, and its address is written to slot `i`. -/
theorem childStep_eq (c : Collaborators) (best : List Nat) (i : Nat) (heap : List Individual)
    (ng : List Nat) (a b pa pb : Nat) (p1 p2 : Individual)
    (ha : parentIndex (c.randomNumber (2 * i)) best.length = some a)
    (hb : parentIndex (c.randomNumber (2 * i + 1)) best.length = some b)
    (hpa : best[a]? = some pa) (hpb : best[b]? = some pb)
    (hp1 : deref heap pa = some p1) (hp2 : deref heap pb = some p2)
    (hi : i < ng.length) :
    childStep c best i (heap, ng) =
      some (heap ++ [c.mate i p1 p2 (c.createRandomIndividual heap.length)],
            ng.set i (heap.length + 1)) := by
  have hs1 : ∀ x, deref (heap ++ [x]) pa = some p1 := fun x => by
    rw [deref_append_left heap [x] pa (deref_eq_some hp1).2.1]; exact hp1
  have hs2 : ∀ x, deref (heap ++ [x]) pb = some p2 := fun x => by
    rw [deref_append_left heap [x] pb (deref_eq_some hp2).2.1]; exact hp2
  have hstore : ∀ x y, store (heap ++ [x]) (heap.length + 1) y = some (heap ++ [y]) := fun x y => by
    rw [store_eq_some y (deref_append_singleton heap x), set_append_last]
  simp only [childStep, alloc, ha, hb, hpa, hpb, Option.some_bind, hs1, hs2,
    deref_append_singleton, hstore, if_pos hi]

/-- Writing slot `i` of a vector whose first `i` slots are filled and whose other slots are null. -/
theorem set_fill (A : List Nat) (P i v : Nat) (hA : A.length = i) (hi : i < P) :
    (A ++ List.replicate (P - i) 0).set i v = (A ++ [v]) ++ List.replicate (P - (i + 1)) 0 := by
  have hrep : List.replicate (P - i) 0 = 0 :: List.replicate (P - (i + 1)) 0 := by
    have : P - i = (P - (i + 1)) + 1 := by omega
    rw [this, List.replicate_succ]
  rw [hrep, List.set_append_right _ _ (by omega), hA, Nat.sub_self]
  simp

theorem nextGenInv_extend (c : Collaborators) (heap1 : List Individual) (best : List Nat)
    (P i : Nat) (L : List Individual) (x : Individual) (hi : i < P) (hL : L.length = i)
    (hspec : ∀ j y, L[j]? = some y → SlotSpec c heap1 best j y)
    (hx : SlotSpec c heap1 best i x) :
    NextGenInv c heap1 best P (i + 1)
      ((heap1 ++ L) ++ [x],
       ((List.range i).map (fun j => heap1.length + j + 1) ++ List.replicate (P - i) 0).set i
         ((heap1 ++ L).length + 1)) := by
  refine ⟨L ++ [x], by simp, by simp [hL], ?_, ?_⟩
  · simp only
    rw [set_fill _ P i _ (by simp) hi, List.range_succ, List.map_append]
    simp [hL]
  · intro j y hj
    by_cases hjl : j < L.length
    · rw [List.getElem?_append_left hjl] at hj
      exact hspec j y hj
    · have hji : j = i := by
        have := (List.getElem?_eq_some_iff.1 hj).1
        simp at this; omega
      subst hji
      rw [List.getElem?_append_right (by omega), hL] at hj
      simp at hj
      subst hj
      exact hx

/-- The two loops of `nextGeneration`, run on the result `(best, g1)` of `bestIndividuals`,
complete and fill every slot: the new generation is the list of the addresses of `P` fresh
objects placed after the memory `heap1` in use at loop entry. -/
theorem nextGeneration_loops (c : Collaborators) (heap1 : List Individual) (best : List Nat)
    (P W : Nat)
    (hbv : ∀ p ∈ best, ∃ x, deref heap1 p = some x ∧ x.mlp.weights.length = W)
    (hf : ∀ k, (c.createRandomIndividual k).mlp.weights.length = W)
    (hr : ∀ k, (c.randomNumber k).num ≤ 2 ^ (c.randomNumber k).exp)
    (hK1 : 1 ≤ best.length) (hK2 : best.length ≤ 2 ^ 31) (hKP : best.length / 2 ≤ P) :
    ∃ L : List Individual,
      (forLoop (eliteStep c best) 0 (best.length / 2) (heap1, List.replicate P 0)).bind
        (forLoop (childStep c best) (best.length / 2) (P - best.length / 2))
        = some (heap1 ++ L, (List.range P).map (fun j => heap1.length + j + 1)) ∧
      L.length = P ∧ ∀ j x, L[j]? = some x → SlotSpec c heap1 best j x := by
  have h1 := forLoop_invariant (eliteStep c best) (NextGenInv c heap1 best P)
    (best.length / 2) 0 (heap1, List.replicate P 0) ⟨[], by simp, rfl, by simp, by simp⟩ ?_
  · obtain ⟨s1, hs1, hInv1⟩ := h1
    rw [Nat.zero_add] at hInv1
    have h2 := forLoop_invariant (childStep c best) (NextGenInv c heap1 best P)
      (P - best.length / 2) (best.length / 2) s1 hInv1 ?_
    · obtain ⟨s2, hs2, L, hL1, hL2, hL3, hL4⟩ := h2
      have hP : best.length / 2 + (P - best.length / 2) = P := by omega
      rw [hP] at hL2 hL3
      refine ⟨L, ?_, hL2, hL4⟩
      rw [hs1, Option.some_bind, hs2]
      congr 1
      rw [Nat.sub_self, List.replicate_zero, List.append_nil] at hL3
      exact Prod.ext hL1 hL3
    · rintro i ⟨heap, ng⟩ hlo hhi ⟨L, hL1, hL2, hL3, hL4⟩
      simp only at hL1 hL3
      subst hL1 hL3
      have hiP : i < P := by omega
      obtain ⟨a, ha, haK⟩ := parentIndex_lt (c.randomNumber (2 * i)) best.length hK1 hK2 (hr _)
      obtain ⟨b, hb, hbK⟩ := parentIndex_lt (c.randomNumber (2 * i + 1)) best.length hK1 hK2 (hr _)
      obtain ⟨p1, hp1, _⟩ := hbv _ (List.getElem_mem haK)
      obtain ⟨p2, hp2, _⟩ := hbv _ (List.getElem_mem hbK)
      have hd1 : deref (heap1 ++ L) best[a] = some p1 := by
        rw [deref_append_left _ _ _ (deref_eq_some hp1).2.1]; exact hp1
      have hd2 : deref (heap1 ++ L) best[b] = some p2 := by
        rw [deref_append_left _ _ _ (deref_eq_some hp2).2.1]; exact hp2
      refine ⟨_, childStep_eq c best i _ _ a b _ _ p1 p2 ha hb
        (List.getElem?_eq_getElem haK) (List.getElem?_eq_getElem hbK) hd1 hd2 (by simp; omega), ?_⟩
      apply nextGenInv_extend c heap1 best P i L _ hiP hL2 hL4
      unfold SlotSpec
      rw [if_neg (by omega)]
      refine ⟨a, b, _, _, p1, p2, ha, hb, List.getElem?_eq_getElem haK,
        List.getElem?_eq_getElem hbK, hp1, hp2, ?_⟩
      simp [hL2]
  · rintro i ⟨heap, ng⟩ _ hhi ⟨L, hL1, hL2, hL3, hL4⟩
    simp only at hL1 hL3
    subst hL1 hL3
    have hiK : i < best.length := by omega
    have hiP : i < P := by omega
    obtain ⟨src, hsrc, hsW⟩ := hbv _ (List.getElem_mem hiK)
    have hd : deref (heap1 ++ L) best[i] = some src := by
      rw [deref_append_left _ _ _ (deref_eq_some hsrc).2.1]; exact hsrc
    refine ⟨_, eliteStep_eq c best i _ _ best[i] src (List.getElem?_eq_getElem hiK) hd
      (by rw [hf, hsW]) (by simp; omega), ?_⟩
    apply nextGenInv_extend c heap1 best P i L _ hiP hL2 hL4
    unfold SlotSpec
    rw [if_pos (by omega)]
    exact ⟨best[i], src, List.getElem?_eq_getElem hiK, hsrc, rfl⟩

theorem valid_live {W : Nat} {g : Genetic} (hv : g.Valid W) : g.Live := by
  intro p hp
  have := hv p hp
  cases h : deref g.heap p with
  | none => rw [h] at this; simp at this
  | some x => rfl

theorem valid_some {W : Nat} {g : Genetic} (hv : g.Valid W) (p : Nat) (hp : p ∈ g.individuals) :
    ∃ x, deref g.heap p = some x ∧ x.mlp.weights.length = W := by
  have := hv p hp
  cases h : deref g.heap p with
  | none => rw [h] at this; simp at this
  | some x => rw [h] at this; exact ⟨x, rfl, by simpa using this⟩

/-- Combined behaviour of `bestIndividuals` and `nextGeneration` on a population of at least ten
valid individuals. -/
theorem nextGeneration_spec (c : Collaborators) (g : Genetic) (W : Nat)
    (hv : g.Valid W) (hf : FactoryTopology W c) (hr : DrawsInUnitInterval c)
    (h10 : 10 ≤ g.individuals.length) (h31 : g.individuals.length < 2 ^ 31) :
    ∃ heap1 sorted L,
      g.bestIndividuals c = some (sorted.take (g.individuals.length / 5),
        { g with individuals := sorted, heap := heap1 }) ∧
      g.nextGeneration c = some ((List.range g.individuals.length).map (fun j => heap1.length + j + 1),
        { g with individuals := sorted, heap := heap1 ++ L }) ∧
      heap1.length = g.heap.length ∧
      (∀ p, deref heap1 p =
        if p ∈ g.individuals then (deref g.heap p).map (Individual.calculateFitness c)
        else deref g.heap p) ∧
      sorted.Perm g.individuals ∧
      sorted.Sorted (fun a b => ¬ fitnessGreater heap1 b a) ∧
      L.length = g.individuals.length ∧
      ∀ j x, L[j]? = some x →
        SlotSpec c heap1 (sorted.take (g.individuals.length / 5)) j x := by
  obtain ⟨heap1, sorted, hbest, hlen, hheap, hperm, hsorted⟩ :=
    bestIndividuals_spec c g (valid_live hv) h10 h31
  have hslen : sorted.length = g.individuals.length := hperm.length_eq
  have hbl : (sorted.take (g.individuals.length / 5)).length = g.individuals.length / 5 := by
    rw [List.length_take]; omega
  have hbv : ∀ p ∈ sorted.take (g.individuals.length / 5),
      ∃ x, deref heap1 p = some x ∧ x.mlp.weights.length = W := by
    intro p hp
    have hpi : p ∈ g.individuals := hperm.subset (List.mem_of_mem_take hp)
    obtain ⟨x, hx, hxW⟩ := valid_some hv p hpi
    exact ⟨x.calculateFitness c, by rw [hheap p, if_pos hpi, hx]; rfl, hxW⟩
  obtain ⟨L, hloops, hL, hspec⟩ := nextGeneration_loops c heap1
    (sorted.take (g.individuals.length / 5)) g.individuals.length W hbv hf hr
    (by omega) (by omega) (by omega)
  refine ⟨heap1, sorted, L, hbest, ?_, hlen, hheap, hperm, hsorted, hL, hspec⟩
  unfold Genetic.nextGeneration
  simp only [hbest, Option.some_bind, hslen]
  cases h1 : forLoop (eliteStep c (sorted.take (g.individuals.length / 5))) 0
      ((sorted.take (g.individuals.length / 5)).length / 2)
      (heap1, List.replicate g.individuals.length 0) with
  | none => rw [h1] at hloops; simp at hloops
  | some s1 =>
    rw [h1, Option.some_bind] at hloops
    simp only [Option.some_bind, hloops]

/-- Slot `i` of the new generation holds the address of the `i`-th object created by
`nextGeneration`. -/
theorem newGeneration_slot (heap1 L : List Individual) (P i : Nat) (hL : L.length = P)
    (hi : i < P) :
    ((List.range P).map (fun j => heap1.length + j + 1))[i]? = some (heap1.length + i + 1) ∧
    ∃ x, L[i]? = some x ∧ deref (heap1 ++ L) (heap1.length + i + 1) = some x := by
  constructor
  · rw [List.getElem?_map, List.getElem?_range hi]; rfl
  · have hiL : i < L.length := by omega
    exact ⟨L[i], List.getElem?_eq_getElem hiL, by
      rw [deref_append_new, List.getElem?_eq_getElem hiL]⟩

/-- When low bits are rounded away, the argument has more than 53 binary digits. -/
theorem le_of_roundShift_pos (n : Nat) (hs : 0 < roundShift n) : 2 ^ (52 + roundShift n) ≤ n := by
  by_contra h
  push_neg at h
  have := (bitLength_le_iff n (52 + roundShift n)).2 h
  unfold roundShift at hs this
  omega

/-- A draw below one never reaches the last index: for a `double` `r < 1` and a pool of `n ≥ 2`
members, the parent index `(int)(r * (n - 1))` is at most `n - 2`. -/
theorem parentIndex_lt_pred (r : Draw) (n : Nat) (hn : 2 ≤ n) (hn2 : n ≤ 2 ^ 31)
    (hdouble : r.num < 2 ^ 53) (hr : r.num < 2 ^ r.exp) :
    ∃ a, parentIndex r n = some a ∧ a < n - 1 := by
  have hm : (n + 2 ^ 64 - 1) % 2 ^ 64 = n - 1 := by omega
  have hconv : roundToDouble (n - 1) = n - 1 := roundToDouble_of_lt _ (by omega)
  have hm1 : 1 ≤ n - 1 := by omega
  have hprod : r.num * (n - 1) + (n - 1) ≤ (n - 1) * 2 ^ r.exp := by
    have : (r.num + 1) * (n - 1) ≤ 2 ^ r.exp * (n - 1) := Nat.mul_le_mul_right _ hr
    rw [Nat.add_mul, Nat.one_mul] at this
    rw [Nat.mul_comm (n - 1)]; exact this
  have hround : roundToDouble (r.num * (n - 1)) < (n - 1) * 2 ^ r.exp := by
    by_cases hs : roundShift (r.num * (n - 1)) = 0
    · have : roundToDouble (r.num * (n - 1)) = r.num * (n - 1) := by
        simp [roundToDouble, hs]
      omega
    · have hlow := le_of_roundShift_pos _ (Nat.pos_of_ne_zero hs)
      have hhalf := roundToDouble_le_add_half (r.num * (n - 1))
      have hup : r.num * (n - 1) < 2 ^ 53 * (n - 1) :=
        Nat.mul_lt_mul_of_lt_of_le hdouble le_rfl (by omega)
      have hpow : (2 : Nat) ^ (52 + roundShift (r.num * (n - 1)))
          = 2 ^ 52 * 2 ^ roundShift (r.num * (n - 1)) := pow_add 2 52 _
      have h253 : (2 : Nat) ^ 53 = 2 ^ 52 * 2 := by norm_num
      have hsmall : 2 ^ roundShift (r.num * (n - 1)) < 2 * (n - 1) := by
        by_contra hge
        push_neg at hge
        have : 2 ^ 52 * (2 * (n - 1)) ≤ 2 ^ 52 * 2 ^ roundShift (r.num * (n - 1)) :=
          Nat.mul_le_mul_left _ hge
        rw [h253] at hup
        nlinarith
      omega
  have hk : roundToDouble (r.num * (n - 1)) / 2 ^ r.exp < n - 1 := by
    rw [Nat.div_lt_iff_lt_mul (by positivity)]; exact hround
  refine ⟨roundToDouble (r.num * (n - 1)) / 2 ^ r.exp, ?_, hk⟩
  unfold parentIndex
  simp only [hm, hconv]
  rw [if_pos (by omega)]

/-! ## Lemmas: checkpoint encoding -/

theorem toBytes_length (n v : Nat) : (toBytes n v).length = n := by
  induction n generalizing v with
  | zero => rfl
  | succ n ih => simp [toBytes, ih]

theorem ofBytes_toBytes (n v : Nat) : ofBytes (toBytes n v) = v % 256 ^ n := by
  induction n generalizing v with
  | zero => simp [toBytes, ofBytes, Nat.mod_one]
  | succ n ih =>
    simp only [toBytes, ofBytes, ih, Nat.mod_mod]
    rw [pow_succ, Nat.mul_comm (256 ^ n) 256, Nat.mod_mul]

theorem intToBytes_length (x : Int) : (intToBytes x).length = 4 := toBytes_length 4 _

theorem bytesToInt_intToBytes (x : Int) (hlo : -2 ^ 31 ≤ x) (hhi : x < 2 ^ 31) :
    bytesToInt (intToBytes x) = x := by
  unfold bytesToInt intToBytes
  simp only [ofBytes_toBytes]
  have h256 : (256 : Nat) ^ 4 = 2 ^ 32 := by norm_num
  rw [h256, Nat.mod_mod]
  have hu : (x % 2 ^ 32).toNat < 2 ^ 32 := by omega
  rw [Nat.mod_eq_of_lt hu]
  split_ifs with h <;> omega

theorem encodeDoubles_length (ws : List Nat) : (encodeDoubles ws).length = 8 * ws.length := by
  induction ws with
  | nil => rfl
  | cons w ws ih => simp [encodeDoubles, toBytes_length, ih]; omega

theorem decodeDoubles_encodeDoubles (ws : List Nat) (h : ∀ w ∈ ws, w < 2 ^ 64) :
    decodeDoubles ws.length (encodeDoubles ws) = ws := by
  induction ws with
  | nil => rfl
  | cons w ws ih =>
    have hw : w < 2 ^ 64 := h w (List.mem_cons_self _ _)
    have h256 : (256 : Nat) ^ 8 = 2 ^ 64 := by norm_num
    simp only [List.length_cons, decodeDoubles, encodeDoubles]
    rw [List.take_left' (toBytes_length 8 w), List.drop_left' (toBytes_length 8 w),
      ofBytes_toBytes, h256, Nat.mod_eq_of_lt hw, ih (fun v hv => h v (List.mem_cons_of_mem _ hv))]

theorem charIsPositive_boolToChar (l : List Bool) :
    (l.map boolToChar).map charIsPositive = l := by
  induction l with
  | nil => rfl
  | cons b l ih =>
    simp only [List.map_cons, ih]
    cases b <;> simp [boolToChar, charIsPositive]

/-- Reading exactly the next block of a good stream. -/
theorem read_block (a rest old : List Nat) (h : old.length = a.length) :
    IStream.read { data := a ++ rest, good := true } old = (a, { data := rest, good := true }) := by
  unfold IStream.read
  simp only [Bool.true_eq_false, if_false, List.length_append]
  rw [if_pos (by omega), h, List.take_left, List.drop_left]

theorem encodePopulation_append (xs ys : List Individual) :
    encodePopulation (xs ++ ys) = encodePopulation xs ++ encodePopulation ys := by
  induction xs with
  | nil => rfl
  | cons x xs ih => simp [encodePopulation, ih]

/-- The objects designated by a list of live pointers. -/
theorem exists_objects (Q : Individual → Prop) (heap : List Individual) (l : List Nat)
    (h : ∀ p ∈ l, ∃ x, deref heap p = some x ∧ Q x) :
    ∃ xs : List Individual, l.map (deref heap) = xs.map some ∧ ∀ x ∈ xs, Q x := by
  induction l with
  | nil => exact ⟨[], rfl, by simp⟩
  | cons p l ih =>
    obtain ⟨x, hx, hQ⟩ := h p (List.mem_cons_self _ _)
    obtain ⟨xs, hxs, hall⟩ := ih (fun q hq => h q (List.mem_cons_of_mem _ hq))
    refine ⟨x :: xs, by simp [hx, hxs], ?_⟩
    intro y hy
    rcases List.mem_cons.1 hy with rfl | hy
    · exact hQ
    · exact hall y hy

theorem objects_getElem {heap : List Individual} {l : List Nat} {xs : List Individual}
    (h : l.map (deref heap) = xs.map some) :
    xs.length = l.length ∧ ∀ i (hi : i < xs.length), ∃ p, l[i]? = some p ∧ deref heap p = some xs[i] := by
  have hlen : xs.length = l.length := by
    have := congrArg List.length h
    simpa using this.symm
  refine ⟨hlen, fun i hi => ?_⟩
  have hil : i < l.length := by omega
  refine ⟨l[i], List.getElem?_eq_getElem hil, ?_⟩
  have := congrArg (fun m => m[i]?) h
  simp only [List.getElem?_map, List.getElem?_eq_getElem hil, List.getElem?_eq_getElem hi,
    Option.map_some'] at this
  exact Option.some.inj this

/-- What `save` writes when the file opens: the two header words, then the block of every
individual in order. -/
theorem save_eq (g : Genetic) (file : Option (List Nat)) (xs : List Individual)
    (hname : g.fileName ≠ "") (hxs : g.individuals.map (deref g.heap) = xs.map some) :
    g.save true file = some (some (intToBytes g.generation ++
      intToBytes (g.individuals.length : Int) ++ encodePopulation xs)) := by
  obtain ⟨hlen, hget⟩ := objects_getElem hxs
  obtain ⟨out, hout, hInv⟩ := forLoop_invariant (saveStep g)
    (fun i out => out = intToBytes g.generation ++ intToBytes (g.individuals.length : Int) ++
      encodePopulation (xs.take i))
    g.individuals.length 0
    (intToBytes g.generation ++ intToBytes (g.individuals.length : Int))
    (by simp [encodePopulation]) (by
      intro i out _ hi hI
      have hix : i < xs.length := by omega
      obtain ⟨p, hp, hd⟩ := hget i hix
      have hstep : saveStep g i out = some (out ++ encodeDoubles xs[i].mlp.getWeights ++
          xs[i].mlp.getConnections.map boolToChar) := by
        simp only [saveStep, hp, hd, Option.some_bind]
      refine ⟨_, hstep, ?_⟩
      beta_reduce
      rw [hI, List.take_succ, List.getElem?_eq_getElem hix, Option.toList_some,
        encodePopulation_append]
      simp [encodePopulation, encodeIndividual, Mlp.getWeights, Mlp.getConnections])
  unfold Genetic.save
  rw [if_neg hname]
  simp only [Bool.true_eq_false, if_false, hout, Option.some_bind]
  rw [hInv, Nat.zero_add, ← hlen, List.take_length]

/-- One iteration of the loop of `load` on a stream that starts with the block of a storable
individual `x`: a fresh object receives the genome of `x`. -/
theorem loadStep_eq (c : Collaborators) (W i : Nat) (x : Individual) (rest : List Nat)
    (heap : List Individual) (inds : List Nat) (hf : FactoryTopology W c) (hx : Storable W x)
    (hi : i < inds.length) :
    loadStep c i ({ data := encodeIndividual x ++ rest, good := true }, heap, inds) =
      some ({ data := rest, good := true },
            heap ++ [{ mlp := { weights := x.mlp.weights, connections := x.mlp.connections },
                       fitness := (c.createRandomIndividual heap.length).fitness }],
            inds.set i (heap.length + 1)) := by
  obtain ⟨hw, hc, hbits⟩ := hx
  have hnum : (c.createRandomIndividual heap.length).mlp.weights.length = W := hf _
  have hstore : ∀ a b, store (heap ++ [a]) (heap.length + 1) b = some (heap ++ [b]) := fun a b => by
    rw [store_eq_some b (deref_append_singleton heap a), set_append_last]
  have hr1 : IStream.read { data := encodeIndividual x ++ rest, good := true }
      (List.replicate (8 * W) 0)
      = (encodeDoubles x.mlp.weights,
         { data := x.mlp.connections.map boolToChar ++ rest, good := true }) := by
    unfold encodeIndividual
    rw [List.append_assoc]
    exact read_block _ _ _ (by simp [encodeDoubles_length, hw])
  have hr2 : IStream.read { data := x.mlp.connections.map boolToChar ++ rest, good := true }
      (List.replicate W 0)
      = (x.mlp.connections.map boolToChar, { data := rest, good := true }) :=
    read_block _ _ _ (by simp [hc])
  have hdec : decodeDoubles W (encodeDoubles x.mlp.weights) = x.mlp.weights := by
    rw [← hw]; exact decodeDoubles_encodeDoubles _ hbits
  simp only [loadStep, alloc, if_pos hi, deref_append_singleton, Option.some_bind,
    Mlp.getNumWeights, hnum, hr1, hr2, hdec, Mlp.setWeights, hw, if_true, hstore,
    Mlp.setConnections, charIsPositive_boolToChar]

/-- What `load` rebuilds from a well-formed checkpoint: the header values, and `P` fresh objects
carrying the stored genomes in order. -/
theorem load_eq (c : Collaborators) (g0 : Genetic) (W : Nat) (gen : Int) (xs : List Individual)
    (hname : g0.fileName ≠ "") (hf : FactoryTopology W c) (hst : ∀ x ∈ xs, Storable W x)
    (hlo : -2 ^ 31 ≤ gen) (hhi : gen < 2 ^ 31) (hP : xs.length < 2 ^ 31) :
    ∃ L : List Individual,
      g0.load c (some (intToBytes gen ++ intToBytes (xs.length : Int) ++ encodePopulation xs)) =
        some (true, { g0 with
          generation := gen, population := xs.length,
          individuals := (List.range xs.length).map (fun j => g0.heap.length + j + 1),
          heap := g0.heap ++ L }) ∧
      L.map (fun x => x.mlp) = xs.map (fun x => x.mlp) := by
  have hr1 : IStream.read
      { data := (intToBytes gen ++ intToBytes (xs.length : Int) ++ encodePopulation xs),
        good := true } (intToBytes g0.generation)
      = (intToBytes gen,
         { data := intToBytes (xs.length : Int) ++ encodePopulation xs, good := true }) := by
    rw [List.append_assoc]
    exact read_block _ _ _ (by simp [intToBytes_length])
  have hr2 : IStream.read
      { data := (intToBytes (xs.length : Int) ++ encodePopulation xs), good := true }
      (intToBytes g0.population)
      = (intToBytes (xs.length : Int), { data := encodePopulation xs, good := true }) :=
    read_block _ _ _ (by simp [intToBytes_length])
  have hgen := bytesToInt_intToBytes gen hlo hhi
  have hpop := bytesToInt_intToBytes (xs.length : Int) (by omega) (by omega)
  obtain ⟨s, hs, hInv⟩ := forLoop_invariant (loadStep c)
    (fun i s => s.1 = { data := encodePopulation (xs.drop i), good := true } ∧
      ∃ L : List Individual, s.2.1 = g0.heap ++ L ∧ L.length = i ∧
        L.map (fun x => x.mlp) = (xs.take i).map (fun x => x.mlp) ∧
        s.2.2 = (List.range i).map (fun j => g0.heap.length + j + 1) ++
          List.replicate (xs.length - i) 0)
    xs.length 0 ({ data := encodePopulation xs, good := true }, g0.heap,
      List.replicate xs.length 0)
    ⟨rfl, [], by simp, rfl, by simp, by simp⟩ (by
      rintro i ⟨ifs, heap, inds⟩ _ hi ⟨hifs, L, hL1, hL2, hL3, hL4⟩
      simp only at hifs hL1 hL4
      have hix : i < xs.length := by omega
      subst hifs hL1 hL4
      rw [List.drop_eq_getElem_cons hix, encodePopulation]
      refine ⟨_, loadStep_eq c W i xs[i] _ _ _ hf (hst _ (List.getElem_mem hix))
        (by simp; omega), rfl,
        L ++ [{ mlp := { weights := xs[i].mlp.weights, connections := xs[i].mlp.connections },
                fitness := (c.createRandomIndividual (g0.heap ++ L).length).fitness }],
        by simp, by simp [hL2], ?_, ?_⟩
      · rw [List.take_succ, List.getElem?_eq_getElem hix, Option.toList_some, List.map_append,
          List.map_append, hL3]
        rfl
      · simp only
        rw [set_fill _ xs.length i _ (by simp) hix, List.range_succ, List.map_append]
        simp [hL2])
  obtain ⟨hifs, L, hL1, hL2, hL3, hL4⟩ := hInv
  rw [Nat.zero_add] at hL2 hL3 hL4
  rw [List.take_length] at hL3
  rw [Nat.sub_self, List.replicate_zero, List.append_nil] at hL4
  refine ⟨L, ?_, hL3⟩
  unfold Genetic.load
  rw [if_neg hname]
  simp only [hr1, hr2, hgen, hpop]
  rw [if_neg (by omega)]
  simp only [Int.toNat_ofNat, hs, Option.some_bind, hL1, hL4]

theorem storableAt_some {W : Nat} {heap : List Individual} {p : Nat}
    (h : storableAt W heap p = true) : ∃ x, deref heap p = some x ∧ Storable W x := by
  unfold storableAt at h
  cases hd : deref heap p with
  | none => rw [hd] at h; cases h
  | some x => rw [hd] at h; exact ⟨x, rfl, of_decide_eq_true h⟩

theorem map_getElem?_range (L : List Individual) (f : Individual → Mlp) :
    (List.range L.length).map (fun j => (L[j]?).map f) = (L.map f).map some := by
  apply List.ext_getElem?
  intro i
  by_cases hi : i < L.length
  · simp [List.getElem?_map, List.getElem?_range hi, List.getElem?_eq_getElem hi]
  · rw [List.getElem?_eq_none (by simp; omega), List.getElem?_eq_none (by simp; omega)]

/-- The genesis loop of `initialize` creates `P` factory individuals. -/
theorem genesis_eq (c : Collaborators) (heap : List Individual) (P : Nat) :
    forLoop (genesisStep c) 0 P (heap, List.replicate P 0) =
      some (heap ++ (List.range P).map (fun j => c.createRandomIndividual (heap.length + j)),
            (List.range P).map (fun j => heap.length + j + 1)) := by
  obtain ⟨s, hs, hI1, hI2⟩ := forLoop_invariant (genesisStep c)
    (fun i s => s.1 = heap ++ (List.range i).map (fun j => c.createRandomIndividual (heap.length + j))
      ∧ s.2 = (List.range i).map (fun j => heap.length + j + 1) ++ List.replicate (P - i) 0)
    P 0 (heap, List.replicate P 0) (by simp) (by
      rintro i ⟨h, inds⟩ _ hi ⟨h1, h2⟩
      simp only at h1 h2
      subst h1 h2
      have hiP : i < P := by omega
      refine ⟨_, by simp only [genesisStep, alloc]; rw [if_pos (by simp; omega)], ?_, ?_⟩
      · simp [List.range_succ]
      · simp only
        rw [set_fill _ P i _ (by simp) hiP, List.range_succ, List.map_append]
        simp)
  rw [hs]
  rw [Nat.zero_add] at hI1 hI2
  rw [Nat.sub_self, List.replicate_zero, List.append_nil] at hI2
  exact congrArg some (Prod.ext hI1 hI2)

/-- With an empty file name, or a file that cannot be opened, `load` returns `false` and leaves
the object as it was. -/
theorem load_not_opened (c : Collaborators) (g : Genetic) (file : Option (List Nat))
    (h : g.fileName = "" ∨ file = none) : g.load c file = some (false, g) := by
  unfold Genetic.load
  rcases h with h | h
  · rw [if_pos h]
  · subst h
    split_ifs <;> rfl

/-- When `load` finds nothing to open, `initialize` creates `population` factory individuals. -/
theorem genesis_when_not_opened (c : Collaborators) (g : Genetic) (file : Option (List Nat))
    (h : g.fileName = "" ∨ file = none) (hpop : 0 ≤ g.population) :
    Genetic.initialize c g file = some { g with
      heap := g.heap ++ (List.range g.population.toNat).map
        (fun j => c.createRandomIndividual (g.heap.length + j)),
      individuals := (List.range g.population.toNat).map (fun j => g.heap.length + j + 1) } := by
  unfold Genetic.initialize
  rw [load_not_opened c g file h]
  simp only [Option.some_bind, Bool.false_eq_true, if_false]
  rw [if_neg (by omega), genesis_eq]
  rfl

/-- Once the file is open, `load` has no path that returns `false`. -/
theorem load_opened (c : Collaborators) (g : Genetic) (hname : g.fileName ≠ "")
    (bytes : List Nat) (r : Bool × Genetic) (hr : g.load c (some bytes) = some r) :
    r.1 = true := by
  unfold Genetic.load at hr
  rw [if_neg hname] at hr
  simp only at hr
  split_ifs at hr
  cases hloop : forLoop (loadStep c) 0
    (bytesToInt ((IStream.read (IStream.read { data := bytes, good := true }
      (intToBytes g.generation)).2 (intToBytes g.population)).1)).toNat
    ((IStream.read (IStream.read { data := bytes, good := true }
      (intToBytes g.generation)).2 (intToBytes g.population)).2, g.heap,
      List.replicate (bytesToInt ((IStream.read (IStream.read { data := bytes, good := true }
        (intToBytes g.generation)).2 (intToBytes g.population)).1)).toNat 0) with
  | none => rw [hloop] at hr; cases hr
  | some s =>
    rw [hloop] at hr
    cases hr
    rfl

theorem decodeDoubles_length (n : Nat) (bs : List Nat) : (decodeDoubles n bs).length = n := by
  induction n generalizing bs with
  | zero => rfl
  | succ n ih => simp [decodeDoubles, ih]

theorem decodeDoubles_zeros (n : Nat) :
    decodeDoubles n (List.replicate (8 * n) 0) = List.replicate n 0 := by
  induction n with
  | zero => rfl
  | succ n ih =>
    have h8 : 8 * (n + 1) = 8 + 8 * n := by omega
    have hsplit : List.replicate (8 + 8 * n) 0 =
        List.replicate 8 0 ++ List.replicate (8 * n) 0 := by
      rw [List.replicate_add]
    rw [h8, hsplit]
    simp only [decodeDoubles]
    rw [List.take_left' (by simp), List.drop_left' (by simp), ih, List.replicate_succ]
    congr 1

/-- Reading into a value-initialized buffer from a stream with no byte left, whether it is still
good or not, leaves the buffer as it was and the stream with no byte left. -/
theorem read_exhausted (s : IStream) (n : Nat) (h : s.data = []) :
    (s.read (List.replicate n 0)).1 = List.replicate n 0 ∧
    (s.read (List.replicate n 0)).2.data = [] := by
  unfold IStream.read
  by_cases hg : s.good = false
  · rw [if_pos hg]; exact ⟨rfl, h⟩
  · rw [if_neg hg]
    by_cases hn : (List.replicate n (0 : Nat)).length ≤ s.data.length
    · rw [if_pos hn]
      have hn0 : n = 0 := by simpa [h] using hn
      subst hn0
      simp [h]
    · rw [if_neg hn]
      simp [h]

/-- One iteration of the loop of `load`, whatever the stream holds: it is always defined, appends
one object of the factory's topology size to the memory and fills slot `i`. -/
theorem loadStep_any (c : Collaborators) (i : Nat) (ifs : IStream) (heap : List Individual)
    (inds : List Nat) (hi : i < inds.length) :
    loadStep c i (ifs, heap, inds) =
      some ((IStream.read (IStream.read ifs (List.replicate
                (8 * (c.createRandomIndividual heap.length).mlp.weights.length) 0)).2
              (List.replicate (c.createRandomIndividual heap.length).mlp.weights.length 0)).2,
            heap ++ [{ mlp :=
                { weights := decodeDoubles (c.createRandomIndividual heap.length).mlp.weights.length
                    (IStream.read ifs (List.replicate
                      (8 * (c.createRandomIndividual heap.length).mlp.weights.length) 0)).1,
                  connections := (IStream.read (IStream.read ifs (List.replicate
                      (8 * (c.createRandomIndividual heap.length).mlp.weights.length) 0)).2
                    (List.replicate (c.createRandomIndividual heap.length).mlp.weights.length
                      0)).1.map charIsPositive },
                       fitness := (c.createRandomIndividual heap.length).fitness }],
            inds.set i (heap.length + 1)) := by
  have hstore : ∀ a b, store (heap ++ [a]) (heap.length + 1) b = some (heap ++ [b]) := fun a b => by
    rw [store_eq_some b (deref_append_singleton heap a), set_append_last]
  simp only [loadStep, alloc, if_pos hi, deref_append_singleton, Option.some_bind,
    Mlp.getNumWeights, Mlp.setWeights, decodeDoubles_length, if_true, hstore,
    Mlp.setConnections]

/-- On an opened file whose header declares a non-negative population, `load` is defined and
returns `true` whatever the length of the payload: it installs the two header values and as many
fresh objects as the header declares; when no payload byte follows the header, every one of them
has the all-zero genome. -/
theorem load_opened_spec (c : Collaborators) (g : Genetic) (bytes : List Nat)
    (hname : g.fileName ≠ "") (hpop : 0 ≤ headerPopulation g bytes) :
    ∃ L : List Individual,
      g.load c (some bytes) = some (true, { g with
        generation := headerGeneration g bytes,
        population := headerPopulation g bytes,
        individuals := (List.range (headerPopulation g bytes).toNat).map
          (fun j => g.heap.length + j + 1),
        heap := g.heap ++ L }) ∧
      L.length = (headerPopulation g bytes).toNat ∧
      (bytes.length ≤ 8 → L = (List.range (headerPopulation g bytes).toNat).map
        (fun j => zeroGenome (c.createRandomIndividual (g.heap.length + j)))) := by
  have hdata : bytes.length ≤ 8 →
      (IStream.read (IStream.read { data := bytes, good := true }
        (intToBytes g.generation)).2 (intToBytes g.population)).2.data = [] := by
    intro h8
    have h4a := intToBytes_length g.generation
    have h4b := intToBytes_length g.population
    unfold IStream.read
    simp only [Bool.true_eq_false, if_false, h4a, h4b]
    by_cases h1 : 4 ≤ bytes.length
    · simp only [if_pos h1, Bool.true_eq_false, if_false, List.length_drop]
      by_cases h2 : 4 ≤ bytes.length - 4
      · simp only [if_pos h2]
        rw [List.drop_drop]
        exact List.drop_eq_nil_of_le (by omega)
      · simp only [if_neg h2]
    · simp only [if_neg h1, if_true]
  obtain ⟨s, hs, L, hL1, hL2, hL3, hL4⟩ := forLoop_invariant (loadStep c)
    (fun i s => ∃ L : List Individual, s.2.1 = g.heap ++ L ∧ L.length = i ∧
      s.2.2 = (List.range i).map (fun j => g.heap.length + j + 1) ++
        List.replicate ((headerPopulation g bytes).toNat - i) 0 ∧
      (bytes.length ≤ 8 → s.1.data = [] ∧ L = (List.range i).map
        (fun j => zeroGenome (c.createRandomIndividual (g.heap.length + j)))))
    (headerPopulation g bytes).toNat 0
    ((IStream.read (IStream.read { data := bytes, good := true }
        (intToBytes g.generation)).2 (intToBytes g.population)).2, g.heap,
      List.replicate (headerPopulation g bytes).toNat 0)
    ⟨[], by simp, rfl, by simp, fun h8 => ⟨hdata h8, by simp⟩⟩ (by
      rintro i ⟨ifs, heap, inds⟩ _ hi ⟨L, hL1, hL2, hL3, hL4⟩
      simp only at hL1 hL3 hL4
      have hiP : i < (headerPopulation g bytes).toNat := by omega
      subst hL1 hL3
      refine ⟨_, loadStep_any c i ifs _ _ (by simp; omega), L ++ [_], List.append_assoc _ _ _,
        by simp [hL2], ?_, ?_⟩
      · simp only
        rw [set_fill _ _ i _ (by simp) hiP, List.range_succ, List.map_append]
        simp [hL2]
      · intro h8
        obtain ⟨hd, hLz⟩ := hL4 h8
        obtain ⟨hr1, hd1⟩ := read_exhausted ifs
          (8 * (c.createRandomIndividual (g.heap ++ L).length).mlp.weights.length) hd
        obtain ⟨hr2, hd2⟩ := read_exhausted _
          (c.createRandomIndividual (g.heap ++ L).length).mlp.weights.length hd1
        refine ⟨hd2, ?_⟩
        rw [hr1, hr2, decodeDoubles_zeros, List.range_succ, List.map_append, ← hLz]
        simp [zeroGenome, charIsPositive, hL2])
  rw [Nat.zero_add] at hL2 hL3 hL4
  rw [Nat.sub_self, List.replicate_zero, List.append_nil] at hL3
  refine ⟨L, ?_, hL2, fun h8 => (hL4 h8).2⟩
  have hpop2 : ¬ bytesToInt (IStream.read (IStream.read { data := bytes, good := true }
      (intToBytes g.generation)).2 (intToBytes g.population)).1 < 0 := by
    unfold headerPopulation at hpop; omega
  unfold Genetic.load
  rw [if_neg hname]
  simp only
  rw [if_neg hpop2]
  unfold headerPopulation at hs
  rw [hs]
  simp only [Option.some_bind, hL1, hL3]
  rfl

/-- A header that declares a negative population makes `individuals.resize` throw. -/
theorem load_negative_population (c : Collaborators) (g : Genetic) (bytes : List Nat)
    (hname : g.fileName ≠ "") (hpop : headerPopulation g bytes < 0) :
    g.load c (some bytes) = none := by
  unfold headerPopulation at hpop
  unfold Genetic.load
  rw [if_neg hname]
  simp only
  rw [if_pos hpop]

/-- With at least 8 bytes in the file, the two header values are its first two 32-bit words. -/
theorem header_of_complete (g : Genetic) (bytes : List Nat) (h8 : 8 ≤ bytes.length) :
    headerGeneration g bytes = bytesToInt (bytes.take 4) ∧
    headerPopulation g bytes = bytesToInt ((bytes.drop 4).take 4) := by
  have h4a := intToBytes_length g.generation
  have h4b := intToBytes_length g.population
  unfold headerGeneration headerPopulation IStream.read
  simp only [Bool.true_eq_false, if_false, h4a, h4b]
  rw [if_pos (by omega)]
  simp only [Bool.true_eq_false, if_false, List.length_drop]
  rw [if_pos (by omega)]
  exact ⟨trivial, rfl⟩

/-- With fewer than 8 bytes in the file a header read fails part-way: the bytes that are there
overwrite the start of the member, the rest of the member keeps its value, and a member read
after the failure is left untouched. -/
theorem header_of_truncated (g : Genetic) (bytes : List Nat) (h8 : bytes.length < 8) :
    (bytes.length < 4 →
      headerGeneration g bytes =
        bytesToInt (bytes ++ (intToBytes g.generation).drop bytes.length) ∧
      headerPopulation g bytes = bytesToInt (intToBytes g.population)) ∧
    (4 ≤ bytes.length →
      headerGeneration g bytes = bytesToInt (bytes.take 4) ∧
      headerPopulation g bytes =
        bytesToInt (bytes.drop 4 ++ (intToBytes g.population).drop (bytes.length - 4))) := by
  have h4a := intToBytes_length g.generation
  have h4b := intToBytes_length g.population
  constructor
  · intro h4
    unfold headerGeneration headerPopulation IStream.read
    simp only [Bool.true_eq_false, if_false, h4a, h4b]
    rw [if_neg (by omega)]
    simp only [if_true]
    exact ⟨trivial, trivial⟩
  · intro h4
    unfold headerGeneration headerPopulation IStream.read
    simp only [Bool.true_eq_false, if_false, h4a, h4b]
    rw [if_pos h4]
    simp only [Bool.true_eq_false, if_false, List.length_drop]
    rw [if_neg (by omega)]
    exact ⟨trivial, rfl⟩

/-! ## Verified properties -/

/-- C1. For every population size `P ≥ 0` and every number of ranks `N ≥ 1`, the index ranges
`[startIndex, endIndex]` of the ranks `0..N-1` cover every index of `[0, P)` exactly once (each
index lies in the range of one and only one rank) and contain nothing outside `[0, P)`.  For
`P = 10`, `N = 3` the ranges are `[0,2]`, `[3,5]`, `[6,9]`. -/
theorem shards_cover_exactly_once (P N : Int) (hP : 0 ≤ P) (hN : 1 ≤ N) :
    (∀ i, 0 ≤ i → i < P → ∃! r, (0 ≤ r ∧ r < N) ∧ inShard P N r i) ∧
    (∀ r i, 0 ≤ r → r < N → inShard P N r i → 0 ≤ i ∧ i < P) ∧
    ((startIndex 10 3 0, endIndex 10 3 0) = (0, 2) ∧
     (startIndex 10 3 1, endIndex 10 3 1) = (3, 5) ∧
     (startIndex 10 3 2, endIndex 10 3 2) = (6, 9)) := by
  obtain ⟨hc0, hcl, hcu⟩ := chunkSize_spec P N hP hN
  refine ⟨?_, ?_, by decide⟩
  · intro i hi0 hiP
    by_cases hlast : (N - 1) * chunkSize P N ≤ i
    · refine ⟨N - 1, ⟨⟨by omega, by omega⟩, ?_⟩, ?_⟩
      · simp only [inShard, startIndex, endIndex, if_true]
        exact ⟨hlast, by omega⟩
      · rintro s ⟨⟨hs0, hsN⟩, hs1, hs2⟩
        by_contra hne
        simp only [startIndex, endIndex, if_neg hne] at hs1 hs2
        have : (s + 1) * chunkSize P N ≤ (N - 1) * chunkSize P N :=
          mul_le_mul_of_nonneg_right (by omega) hc0
        nlinarith
    · push_neg at hlast
      have hc : 0 < chunkSize P N := by
        by_contra h
        have : chunkSize P N = 0 := by omega
        rw [this] at hlast; simp at hlast; omega
      have hr1 : i / chunkSize P N * chunkSize P N ≤ i := Int.ediv_mul_le i (by omega)
      have hr2 : i < (i / chunkSize P N + 1) * chunkSize P N :=
        Int.lt_ediv_add_one_mul_self i hc
      have hr0 : 0 ≤ i / chunkSize P N := Int.ediv_nonneg hi0 hc0
      have hrN : i / chunkSize P N < N - 1 := by
        apply Int.ediv_lt_of_lt_mul hc hlast
      have hne : ¬ (i / chunkSize P N = N - 1) := by omega
      refine ⟨i / chunkSize P N, ⟨⟨hr0, by omega⟩, ?_⟩, ?_⟩
      · simp only [inShard, startIndex, endIndex, if_neg hne]
        constructor
        · exact hr1
        · linarith
      · rintro s ⟨⟨hs0, hsN⟩, hs1, hs2⟩
        by_cases hs : s = N - 1
        · subst hs
          simp only [startIndex] at hs1
          omega
        · simp only [startIndex, endIndex, if_neg hs] at hs1 hs2
          apply shard_unique_aux (chunkSize P N) i <;> linarith
  · rintro r i hr0 hrN ⟨h1, h2⟩
    simp only [startIndex] at h1
    have hrc : 0 ≤ r * chunkSize P N := mul_nonneg hr0 hc0
    refine ⟨by omega, ?_⟩
    by_cases hs : r = N - 1
    · simp only [endIndex, if_pos hs] at h2
      omega
    · simp only [endIndex, startIndex, if_neg hs] at h2
      have : (r + 1) * chunkSize P N ≤ (N - 1) * chunkSize P N :=
        mul_le_mul_of_nonneg_right (by omega) hc0
      nlinarith

/-- Witness for C1 at `P = 10`, `N = 3`. -/
theorem shards_cover_exactly_once_witness :
    ((0 : Int) ≤ 10 ∧ (1 : Int) ≤ 3) ∧
    ((∀ i, 0 ≤ i → i < 10 → ∃! r, (0 ≤ r ∧ r < 3) ∧ inShard 10 3 r i) ∧
     (∀ r i, 0 ≤ r → r < 3 → inShard 10 3 r i → 0 ≤ i ∧ i < 10) ∧
     ((startIndex 10 3 0, endIndex 10 3 0) = (0, 2) ∧
      (startIndex 10 3 1, endIndex 10 3 1) = (3, 5) ∧
      (startIndex 10 3 2, endIndex 10 3 2) = (6, 9))) :=
  ⟨⟨by decide, by decide⟩, shards_cover_exactly_once 10 3 (by decide) (by decide)⟩

/-- C5, as amended.  `(int)(n*0.2)` equals `n / 5` for every size `n` below `2 ^ 31`; and for every
population of `P` individuals with `10 ≤ P < 2 ^ 31` whose pointers are all valid,
`bestIndividuals()` returns `P / 5` individuals, the result is non-increasing in fitness, and
every returned individual is at least as fit as every individual not returned, where the fitness
of each individual of the population is the value recomputed from its genome during the call. -/
theorem bestIndividuals_top_fifth (c : Collaborators) (g : Genetic) (hv : g.Live)
    (h10 : 10 ≤ g.individuals.length) (h31 : g.individuals.length < 2 ^ 31) :
    (∀ n, n < 2 ^ 31 → eliteCount n = some (n / 5)) ∧
    ∃ E g1 rest, g.bestIndividuals c = some (E, g1) ∧
      E.length = g.individuals.length / 5 ∧
      (∀ p ∈ g.individuals, ∃ x, deref g.heap p = some x ∧
        deref g1.heap p = some (x.calculateFitness c)) ∧
      E.Pairwise (fun a b => fitnessAt g1.heap b ≤ fitnessAt g1.heap a) ∧
      g1.individuals = E ++ rest ∧ (E ++ rest).Perm g.individuals ∧
      ∀ p ∈ E, ∀ q ∈ rest, fitnessAt g1.heap q ≤ fitnessAt g1.heap p := by
  refine ⟨eliteCount_eq, ?_⟩
  obtain ⟨heap1, sorted, hbest, _, hheap, hperm, hsorted⟩ := bestIndividuals_spec c g hv h10 h31
  have hslen : sorted.length = g.individuals.length := hperm.length_eq
  have hle : ∀ a b, ¬ fitnessGreater heap1 b a → fitnessAt heap1 b ≤ fitnessAt heap1 a := by
    intro a b h; unfold fitnessGreater at h; omega
  refine ⟨_, _, sorted.drop (g.individuals.length / 5), hbest, ?_, ?_, ?_, ?_, ?_, ?_⟩
  · rw [List.length_take]; omega
  · intro p hp
    obtain ⟨x, hx⟩ := Option.isSome_iff_exists.1 (hv p hp)
    exact ⟨x, hx, by simp only [hheap p, if_pos hp, hx, Option.map_some']⟩
  · exact ((hsorted.sublist (List.take_sublist _ _)).imp (fun {a b} h => hle a b h))
  · exact (List.take_append_drop _ _).symm
  · rw [List.take_append_drop]; exact hperm
  · intro p hp q hq
    exact hle p q (hsorted.rel_of_mem_take_of_mem_drop hp hq)

/-- Witness for C5 (amended) on the sample population of 20 individuals. -/
theorem bestIndividuals_top_fifth_witness :
    ((samplePopulation 20).Live ∧ 10 ≤ (samplePopulation 20).individuals.length ∧
      (samplePopulation 20).individuals.length < 2 ^ 31) ∧
    ((∀ n, n < 2 ^ 31 → eliteCount n = some (n / 5)) ∧
    ∃ E g1 rest, (samplePopulation 20).bestIndividuals sampleCollaborators = some (E, g1) ∧
      E.length = (samplePopulation 20).individuals.length / 5 ∧
      (∀ p ∈ (samplePopulation 20).individuals, ∃ x, deref (samplePopulation 20).heap p = some x ∧
        deref g1.heap p = some (x.calculateFitness sampleCollaborators)) ∧
      E.Pairwise (fun a b => fitnessAt g1.heap b ≤ fitnessAt g1.heap a) ∧
      g1.individuals = E ++ rest ∧ (E ++ rest).Perm (samplePopulation 20).individuals ∧
      ∀ p ∈ E, ∀ q ∈ rest, fitnessAt g1.heap q ≤ fitnessAt g1.heap p) :=
  ⟨⟨by decide, by decide, by decide⟩,
    bestIndividuals_top_fifth sampleCollaborators (samplePopulation 20)
      (by decide) (by decide) (by decide)⟩

/-- C5, counterexample to the claim as stated: on a population of 5 valid individuals, for which
`(int)(5*0.2)` is `1`, `bestIndividuals()` does not return one individual: its log loop reads
`individuals[5]` beyond the end of the vector, which is undefined. -/
theorem bestIndividuals_five_undefined :
    (samplePopulation 5).Live ∧ (samplePopulation 5).individuals.length = 5 ∧
    eliteCount 5 = some 1 ∧
    (samplePopulation 5).bestIndividuals sampleCollaborators = none := by
  decide

/-- C3, as amended.  For every population of `P` individuals with `10 ≤ P < 2 ^ 31`, all of
topology size `W` (as are the individuals built by the factory), and draws in `[0, 1]`,
`nextGeneration()` returns a sequence of exactly `P` individuals in which every slot is filled:
slot `i < |E|/2` holds a live individual whose genome is the genome of `E[i]`, and slot `i` with
`|E|/2 ≤ i < P` holds a live individual written by `mate` from two members of `E`, where `E`
(of `P / 5` members) is the result of `bestIndividuals()`. -/
theorem nextGeneration_fills_every_slot (c : Collaborators) (g : Genetic) (W : Nat)
    (hv : g.Valid W) (hf : FactoryTopology W c) (hr : DrawsInUnitInterval c)
    (h10 : 10 ≤ g.individuals.length) (h31 : g.individuals.length < 2 ^ 31) :
    ∃ E g1 ng g', g.bestIndividuals c = some (E, g1) ∧ g.nextGeneration c = some (ng, g') ∧
      E.length = g.individuals.length / 5 ∧
      ng.length = g.individuals.length ∧
      (∀ i, i < E.length / 2 → ∃ p x bi src,
        ng[i]? = some p ∧ deref g'.heap p = some x ∧
        E[i]? = some bi ∧ deref g1.heap bi = some src ∧ x.mlp = src.mlp) ∧
      (∀ i, E.length / 2 ≤ i → i < g.individuals.length → ∃ p x a b pa pb p1 p2,
        ng[i]? = some p ∧ deref g'.heap p = some x ∧
        parentIndex (c.randomNumber (2 * i)) E.length = some a ∧
        parentIndex (c.randomNumber (2 * i + 1)) E.length = some b ∧
        E[a]? = some pa ∧ E[b]? = some pb ∧
        deref g1.heap pa = some p1 ∧ deref g1.heap pb = some p2 ∧
        x = c.mate i p1 p2 (c.createRandomIndividual (g1.heap.length + i))) := by
  obtain ⟨heap1, sorted, L, hbest, hnext, _, _, hperm, _, hL, hspec⟩ :=
    nextGeneration_spec c g W hv hf hr h10 h31
  have hslen : sorted.length = g.individuals.length := hperm.length_eq
  have hbl : (sorted.take (g.individuals.length / 5)).length = g.individuals.length / 5 := by
    rw [List.length_take]; omega
  refine ⟨_, _, _, _, hbest, hnext, hbl, by simp, ?_, ?_⟩
  · intro i hi
    obtain ⟨hslot, x, hx, hd⟩ := newGeneration_slot heap1 L _ i hL (by omega)
    have := hspec i x hx
    unfold SlotSpec at this
    rw [if_pos hi] at this
    obtain ⟨bi, src, h1, h2, h3⟩ := this
    exact ⟨_, x, bi, src, hslot, hd, h1, h2, h3⟩
  · intro i hi hiP
    obtain ⟨hslot, x, hx, hd⟩ := newGeneration_slot heap1 L _ i hL hiP
    have := hspec i x hx
    unfold SlotSpec at this
    rw [if_neg (by omega)] at this
    obtain ⟨a, b, pa, pb, p1, p2, h1, h2, h3, h4, h5, h6, h7⟩ := this
    exact ⟨_, x, a, b, pa, pb, p1, p2, hslot, hd, h1, h2, h3, h4, h5, h6, h7⟩

/-- Witness for C3 (amended) on the sample population of 20 individuals: the elite pool has 4
members, so slots 0 and 1 are elite copies and slots 2 to 19 are children. -/
theorem nextGeneration_fills_every_slot_witness :
    ((samplePopulation 20).Valid 1 ∧ FactoryTopology 1 sampleCollaborators ∧
      DrawsInUnitInterval sampleCollaborators ∧ 10 ≤ (samplePopulation 20).individuals.length ∧
      (samplePopulation 20).individuals.length < 2 ^ 31) ∧
    ∃ E g1 ng g', (samplePopulation 20).bestIndividuals sampleCollaborators = some (E, g1) ∧
      (samplePopulation 20).nextGeneration sampleCollaborators = some (ng, g') ∧
      E.length = (samplePopulation 20).individuals.length / 5 ∧
      ng.length = (samplePopulation 20).individuals.length ∧
      (∀ i, i < E.length / 2 → ∃ p x bi src,
        ng[i]? = some p ∧ deref g'.heap p = some x ∧
        E[i]? = some bi ∧ deref g1.heap bi = some src ∧ x.mlp = src.mlp) ∧
      (∀ i, E.length / 2 ≤ i → i < (samplePopulation 20).individuals.length →
        ∃ p x a b pa pb p1 p2,
        ng[i]? = some p ∧ deref g'.heap p = some x ∧
        parentIndex (sampleCollaborators.randomNumber (2 * i)) E.length = some a ∧
        parentIndex (sampleCollaborators.randomNumber (2 * i + 1)) E.length = some b ∧
        E[a]? = some pa ∧ E[b]? = some pb ∧
        deref g1.heap pa = some p1 ∧ deref g1.heap pb = some p2 ∧
        x = sampleCollaborators.mate i p1 p2
          (sampleCollaborators.createRandomIndividual (g1.heap.length + i))) :=
  ⟨⟨by decide, fun _ => rfl, fun _ => (by decide : (1 : Nat) ≤ 2 ^ 1), by decide, by decide⟩,
    nextGeneration_fills_every_slot sampleCollaborators (samplePopulation 20) 1
      (by decide) (fun _ => rfl) (fun _ => (by decide : (1 : Nat) ≤ 2 ^ 1)) (by decide) (by decide)⟩

/-- C3, counterexample to the claim as stated: on a population of 3 valid individuals
`nextGeneration()` returns no sequence of 3 individuals.  Its call of `bestIndividuals()` reads
`individuals[3]` beyond the end of the vector, and the elite pool would have `(int)(3*0.2) = 0`
members, so that no child could be bred from two of its members: the call is undefined. -/
theorem nextGeneration_three_undefined :
    (samplePopulation 3).Valid 1 ∧ (samplePopulation 3).individuals.length = 3 ∧
    eliteCount 3 = some 0 ∧
    (samplePopulation 3).nextGeneration sampleCollaborators = none := by
  decide

/-- C4.  For every population (of topology size `W`, with a factory of the same topology, draws in
`[0, 1]` and fewer than `2 ^ 31` individuals) and every `i < |E|/2`, where `E` is the elite pool
returned by `bestIndividuals()`: `nextGeneration()` returns, and the individual in its slot `i`
is a newly created one (its address was not in use before the call) whose weight vector and
connection mask are equal to those of `E[i]`; the object `E[i]` is the same after the call as
when it was selected, and its genome is the one it had before the call. -/
theorem elite_slot_is_fresh_copy (c : Collaborators) (g : Genetic) (W : Nat)
    (E : List Nat) (g1 : Genetic) (i : Nat)
    (hv : g.Valid W) (hf : FactoryTopology W c) (hr : DrawsInUnitInterval c)
    (h31 : g.individuals.length < 2 ^ 31)
    (hE : g.bestIndividuals c = some (E, g1)) (hi : i < E.length / 2) :
    ∃ ng g' p e bi src, g.nextGeneration c = some (ng, g') ∧
      ng[i]? = some p ∧ g.heap.length < p ∧ deref g.heap p = none ∧
      deref g'.heap p = some e ∧
      E[i]? = some bi ∧ deref g1.heap bi = some src ∧
      e.mlp.weights = src.mlp.weights ∧ e.mlp.connections = src.mlp.connections ∧
      deref g'.heap bi = some src ∧
      (deref g.heap bi).map (fun x => x.mlp) = some src.mlp := by
  have h10 : 10 ≤ g.individuals.length := by
    by_contra h
    rw [bestIndividuals_eq_none c g (by omega)] at hE
    cases hE
  obtain ⟨heap1, sorted, L, hbest, hnext, hlen, hheap, hperm, _, hL, hspec⟩ :=
    nextGeneration_spec c g W hv hf hr h10 h31
  rw [hbest] at hE
  cases hE
  have hslen : sorted.length = g.individuals.length := hperm.length_eq
  have hbl : (sorted.take (g.individuals.length / 5)).length = g.individuals.length / 5 := by
    rw [List.length_take]; omega
  have hiP : i < g.individuals.length := by omega
  obtain ⟨hslot, x, hx, hd⟩ := newGeneration_slot heap1 L _ i hL hiP
  have hs := hspec i x hx
  unfold SlotSpec at hs
  rw [if_pos hi] at hs
  obtain ⟨bi, src, h1, h2, h3⟩ := hs
  have hbi : bi ∈ g.individuals :=
    hperm.subset (List.mem_of_mem_take (List.getElem?_mem h1))
  refine ⟨_, _, _, x, bi, src, hnext, hslot, by omega, ?_, hd, h1, h2, by rw [h3], by rw [h3],
    ?_, ?_⟩
  · unfold deref
    rw [if_neg (by omega), List.getElem?_eq_none (by omega)]
  · show deref (heap1 ++ L) bi = some src
    rw [deref_append_left _ _ _ (deref_eq_some h2).2.1]; exact h2
  · rw [hheap bi, if_pos hbi] at h2
    cases hb : deref g.heap bi with
    | none => rw [hb] at h2; cases h2
    | some y =>
      rw [hb] at h2
      simp only [Option.map_some', Option.some.injEq] at h2
      subst h2
      rfl

/-- Witness for C4 on the sample population of 20 individuals, slot 1. -/
theorem elite_slot_is_fresh_copy_witness :
    ((samplePopulation 20).Valid 1 ∧ FactoryTopology 1 sampleCollaborators ∧
      DrawsInUnitInterval sampleCollaborators ∧
      (samplePopulation 20).individuals.length < 2 ^ 31 ∧
      (samplePopulation 20).bestIndividuals sampleCollaborators =
        some ([20, 19, 18, 17],
          { samplePopulation 20 with
            individuals := [20, 19, 18, 17, 16, 15, 14, 13, 12, 11, 10, 9, 8, 7, 6, 5, 4, 3, 2, 1]
            heap := (samplePopulation 20).heap.map
              (Individual.calculateFitness sampleCollaborators) }) ∧
      1 < [20, 19, 18, 17].length / 2) ∧
    ∃ ng g' p e bi src, (samplePopulation 20).nextGeneration sampleCollaborators = some (ng, g') ∧
      ng[1]? = some p ∧ (samplePopulation 20).heap.length < p ∧
      deref (samplePopulation 20).heap p = none ∧
      deref g'.heap p = some e ∧
      [20, 19, 18, 17][1]? = some bi ∧
      deref ((samplePopulation 20).heap.map
        (Individual.calculateFitness sampleCollaborators)) bi = some src ∧
      e.mlp.weights = src.mlp.weights ∧ e.mlp.connections = src.mlp.connections ∧
      deref g'.heap bi = some src ∧
      (deref (samplePopulation 20).heap bi).map (fun x => x.mlp) = some src.mlp :=
  ⟨⟨by decide, fun _ => rfl, fun _ => (by decide : (1 : Nat) ≤ 2 ^ 1), by decide, by decide, by decide⟩,
    elite_slot_is_fresh_copy sampleCollaborators (samplePopulation 20) 1 [20, 19, 18, 17]
      { samplePopulation 20 with
        individuals := [20, 19, 18, 17, 16, 15, 14, 13, 12, 11, 10, 9, 8, 7, 6, 5, 4, 3, 2, 1]
        heap := (samplePopulation 20).heap.map
          (Individual.calculateFitness sampleCollaborators) } 1
      (by decide) (fun _ => rfl) (fun _ => (by decide : (1 : Nat) ≤ 2 ^ 1)) (by decide) (by decide) (by decide)⟩

/-- C10.  For every population of `P` individuals with `10 ≤ P < 2 ^ 31` (of topology size `W`,
with a factory of the same topology and draws in `[0, 1]`), `bestIndividuals()` and
`nextGeneration()` are defined, so every index they use is in bounds: the ten positions `0..9`
read for the log line exist, the elite pool has `|E| = P / 5 ≥ 2` members, and for every draw
`r` in `[0, 1]` the parent index `(int)(r * (|E| - 1))` is below `|E|`.  For `P < 10` the vector
has no position 9, and `bestIndividuals()` is undefined. -/
theorem selection_indices_in_bounds (c : Collaborators) (g : Genetic) (W : Nat) :
    (g.Valid W → FactoryTopology W c → DrawsInUnitInterval c →
      10 ≤ g.individuals.length → g.individuals.length < 2 ^ 31 →
      ∃ E g1, g.bestIndividuals c = some (E, g1) ∧
        (∀ i, i < 10 → ∃ p, g1.individuals[i]? = some p) ∧
        E.length = g.individuals.length / 5 ∧ 2 ≤ E.length ∧
        (∀ r : Draw, r.num ≤ 2 ^ r.exp → ∃ a, parentIndex r E.length = some a ∧ a < E.length) ∧
        (g.nextGeneration c).isSome) ∧
    (g.individuals.length < 10 →
      (∀ l : List Nat, l.length = g.individuals.length → l[9]? = none) ∧
      g.bestIndividuals c = none) := by
  constructor
  · intro hv hf hr h10 h31
    obtain ⟨heap1, sorted, L, hbest, hnext, _, _, hperm, _, _, _⟩ :=
      nextGeneration_spec c g W hv hf hr h10 h31
    have hslen : sorted.length = g.individuals.length := hperm.length_eq
    have hbl : (sorted.take (g.individuals.length / 5)).length = g.individuals.length / 5 := by
      rw [List.length_take]; omega
    refine ⟨_, _, hbest, ?_, hbl, by omega, ?_, by rw [hnext]; rfl⟩
    · intro i hi
      have hi2 : i < sorted.length := by omega
      exact ⟨sorted[i], List.getElem?_eq_getElem hi2⟩
    · intro r hr1
      exact parentIndex_lt r _ (by omega) (by omega) hr1
  · intro h10
    exact ⟨fun l hl => List.getElem?_eq_none (by omega), bestIndividuals_eq_none c g h10⟩

/-- Witness for C10: the first part on the sample population of 20 individuals, the second on the
sample population of 9. -/
theorem selection_indices_in_bounds_witness :
    (((samplePopulation 20).Valid 1 ∧ FactoryTopology 1 sampleCollaborators ∧
      DrawsInUnitInterval sampleCollaborators ∧ 10 ≤ (samplePopulation 20).individuals.length ∧
      (samplePopulation 20).individuals.length < 2 ^ 31) ∧
     ∃ E g1, (samplePopulation 20).bestIndividuals sampleCollaborators = some (E, g1) ∧
        (∀ i, i < 10 → ∃ p, g1.individuals[i]? = some p) ∧
        E.length = (samplePopulation 20).individuals.length / 5 ∧ 2 ≤ E.length ∧
        (∀ r : Draw, r.num ≤ 2 ^ r.exp → ∃ a, parentIndex r E.length = some a ∧ a < E.length) ∧
        ((samplePopulation 20).nextGeneration sampleCollaborators).isSome) ∧
    ((samplePopulation 9).individuals.length < 10 ∧
      (∀ l : List Nat, l.length = (samplePopulation 9).individuals.length → l[9]? = none) ∧
      (samplePopulation 9).bestIndividuals sampleCollaborators = none) :=
  ⟨⟨⟨by decide, fun _ => rfl, fun _ => (by decide : (1 : Nat) ≤ 2 ^ 1), by decide, by decide⟩,
     (selection_indices_in_bounds sampleCollaborators (samplePopulation 20) 1).1
       (by decide) (fun _ => rfl) (fun _ => (by decide : (1 : Nat) ≤ 2 ^ 1))
       (by decide) (by decide)⟩,
   ⟨by decide,
     (selection_indices_in_bounds sampleCollaborators (samplePopulation 9) 1).2 (by decide)⟩⟩

/-- C6, evaluation of the code at the failing input.  With `P = 20` the elite pool has 4 members,
and no `double` draw `r` in `[0, 1)` makes `(int)(r * (best.size()-1))` equal to 3: the last
member of the pool is never chosen as a parent.  The draws `0`, `1/2` and `3/4` choose the
indices 0, 1 and 2; only the draw `1` chooses index 3. -/
theorem last_elite_never_drawn :
    eliteCount 20 = some 4 ∧
    (¬ ∃ r : Draw, r.num < 2 ^ 53 ∧ r.num < 2 ^ r.exp ∧ parentIndex r 4 = some 3) ∧
    (parentIndex { num := 0, exp := 0 } 4 = some 0 ∧
     parentIndex { num := 1, exp := 1 } 4 = some 1 ∧
     parentIndex { num := 3, exp := 2 } 4 = some 2 ∧
     parentIndex { num := 1, exp := 0 } 4 = some 3) := by
  refine ⟨by decide, ?_, by decide⟩
  rintro ⟨r, h53, hlt, h3⟩
  obtain ⟨a, ha, ha3⟩ := parentIndex_lt_pred r 4 (by norm_num) (by norm_num) h53 hlt
  rw [h3] at ha
  cases ha
  omega

/-- C2.  Round trip: for every generation number `g.generation` (an `int`) and every population
of `P < 2 ^ 31` individuals whose genomes have `W` weights (64-bit patterns) and `W` connection
flags, `save()` with the file opening, followed by `load()` of the written bytes by an engine that
names the same file and whose factory builds individuals of topology size `W`, returns `true` and
reconstructs the generation number, `population = P`, `P` individuals, and for every individual
the same weight vector (bit for bit) and the same connection mask, in the same order. -/
theorem save_load_roundtrip (c : Collaborators) (g g0 : Genetic) (W : Nat)
    (file : Option (List Nat))
    (hname : g.fileName ≠ "") (hname0 : g0.fileName = g.fileName)
    (hst : g.Storable W) (hf : FactoryTopology W c)
    (hlo : -2 ^ 31 ≤ g.generation) (hhi : g.generation < 2 ^ 31)
    (hP : g.individuals.length < 2 ^ 31) :
    ∃ bytes g', g.save true file = some (some bytes) ∧
      g0.load c (some bytes) = some (true, g') ∧
      g'.generation = g.generation ∧
      g'.population = g.individuals.length ∧
      g'.individuals.length = g.individuals.length ∧
      g'.genomes = g.genomes ∧ ∀ m ∈ g.genomes, m.isSome := by
  obtain ⟨xs, hxs, hall⟩ := exists_objects (Storable W) g.heap g.individuals
    (fun p hp => storableAt_some (hst p hp))
  obtain ⟨hlen, _⟩ := objects_getElem hxs
  have hsave := save_eq g file xs hname hxs
  obtain ⟨L, hload, hL⟩ := load_eq c g0 W g.generation xs (by rw [hname0]; exact hname) hf hall
    hlo hhi (by omega)
  have hLlen : L.length = xs.length := by
    have := congrArg List.length hL
    simpa using this
  have hgen : g.genomes = (xs.map (fun x => x.mlp)).map some := by
    unfold Genetic.genomes
    have := congrArg (List.map (Option.map (fun x : Individual => x.mlp))) hxs
    simpa [List.map_map, Function.comp_def] using this
  rw [← hlen] at hsave ⊢
  refine ⟨_, _, hsave, hload, rfl, rfl, by simp, ?_, ?_⟩
  · rw [hgen, ← hL, ← map_getElem?_range L, ← hLlen]
    unfold Genetic.genomes
    simp only [List.map_map]
    apply List.map_congr_left
    intro j _
    simp only [Function.comp_apply, deref_append_new]
  · rw [hgen]
    intro m hm
    obtain ⟨y, _, rfl⟩ := List.mem_map.1 hm
    rfl

/-- Witness for C2 at generation 5, `P = 2`, `W = 3`: the reload by a freshly constructed engine
yields generation 5 and 2 individuals with exactly the saved genomes. -/
theorem save_load_roundtrip_witness :
    (sampleCheckpointState.fileName ≠ "" ∧
      (Genetic.new 7 "generation.bin").fileName = sampleCheckpointState.fileName ∧
      sampleCheckpointState.Storable 3 ∧ FactoryTopology 3 sampleCollaborators3 ∧
      -2 ^ 31 ≤ sampleCheckpointState.generation ∧ sampleCheckpointState.generation < 2 ^ 31 ∧
      sampleCheckpointState.individuals.length < 2 ^ 31) ∧
    ∃ bytes g', sampleCheckpointState.save true none = some (some bytes) ∧
      (Genetic.new 7 "generation.bin").load sampleCollaborators3 (some bytes) = some (true, g') ∧
      g'.generation = sampleCheckpointState.generation ∧
      g'.population = sampleCheckpointState.individuals.length ∧
      g'.individuals.length = sampleCheckpointState.individuals.length ∧
      g'.genomes = sampleCheckpointState.genomes ∧ ∀ m ∈ sampleCheckpointState.genomes, m.isSome :=
  ⟨⟨by decide, by decide, by decide, fun _ => rfl, by decide, by decide, by decide⟩,
    save_load_roundtrip sampleCollaborators3 sampleCheckpointState (Genetic.new 7 "generation.bin")
      3 none (by decide) (by decide) (by decide) (fun _ => rfl) (by decide) (by decide)
      (by decide)⟩

/-- C7, as amended.  `load()` returns `false` whenever the file name is empty or the file cannot be
opened; in those cases nothing is installed (the object is unchanged) and `initialize()` falls
back to creating `population` individuals with the factory.  When the file opens, `load()` never
returns `false`, whatever the file holds, and no failed read or short payload is detected: if the
population word it reads is not negative, `load()` returns `true` and installs the generation and
the population read from the header, with that many freshly created individuals, all of them with
the all-zero genome when no payload byte follows the header; if that word is negative, `load()`
does not return (the resize throws).  The header values are the first two 32-bit words of a file
of at least 8 bytes; in a shorter file the bytes present overwrite the start of the member being
read and everything after them keeps its previous value. -/
theorem load_false_only_when_not_opened (c : Collaborators) (g : Genetic) :
    (∀ file, g.fileName = "" ∨ file = none →
      g.load c file = some (false, g) ∧
      (0 ≤ g.population → Genetic.initialize c g file = some { g with
        heap := g.heap ++ (List.range g.population.toNat).map
          (fun j => c.createRandomIndividual (g.heap.length + j)),
        individuals := (List.range g.population.toNat).map (fun j => g.heap.length + j + 1) })) ∧
    (g.fileName ≠ "" → ∀ bytes,
      (∀ r, g.load c (some bytes) = some r → r.1 = true) ∧
      (0 ≤ headerPopulation g bytes → ∃ L : List Individual,
        g.load c (some bytes) = some (true, { g with
          generation := headerGeneration g bytes,
          population := headerPopulation g bytes,
          individuals := (List.range (headerPopulation g bytes).toNat).map
            (fun j => g.heap.length + j + 1),
          heap := g.heap ++ L }) ∧
        L.length = (headerPopulation g bytes).toNat ∧
        (bytes.length ≤ 8 → L = (List.range (headerPopulation g bytes).toNat).map
          (fun j => zeroGenome (c.createRandomIndividual (g.heap.length + j))))) ∧
      (headerPopulation g bytes < 0 → g.load c (some bytes) = none) ∧
      (8 ≤ bytes.length →
        headerGeneration g bytes = bytesToInt (bytes.take 4) ∧
        headerPopulation g bytes = bytesToInt ((bytes.drop 4).take 4)) ∧
      (4 ≤ bytes.length → bytes.length < 8 →
        headerGeneration g bytes = bytesToInt (bytes.take 4) ∧
        headerPopulation g bytes =
          bytesToInt (bytes.drop 4 ++ (intToBytes g.population).drop (bytes.length - 4))) ∧
      (bytes.length < 4 →
        headerGeneration g bytes =
          bytesToInt (bytes ++ (intToBytes g.generation).drop bytes.length) ∧
        headerPopulation g bytes = bytesToInt (intToBytes g.population))) :=
  ⟨fun file h => ⟨load_not_opened c g file h, genesis_when_not_opened c g file h⟩,
   fun hname bytes =>
    ⟨load_opened c g hname bytes,
     load_opened_spec c g bytes hname,
     load_negative_population c g bytes hname,
     header_of_complete g bytes,
     fun h4 h8 => (header_of_truncated g bytes h8).2 h4,
     fun h4 => (header_of_truncated g bytes (by omega)).1 h4⟩⟩

/-- Witness for C7 (amended): an engine constructed for a population of 20 with no file name, and
one with a file name whose file holds only the 8 header bytes (generation 5, population 2). -/
theorem load_false_only_when_not_opened_witness :
    (((Genetic.new 20 "").fileName = "" ∨ (none : Option (List Nat)) = none) ∧
      (0 : Int) ≤ (Genetic.new 20 "").population ∧
      (Genetic.new 20 "").load sampleCollaborators none = some (false, Genetic.new 20 "") ∧
      Genetic.initialize sampleCollaborators (Genetic.new 20 "") none = some { Genetic.new 20 "" with
        heap := (Genetic.new 20 "").heap ++ (List.range (20 : Int).toNat).map
          (fun j => sampleCollaborators.createRandomIndividual ((Genetic.new 20 "").heap.length + j)),
        individuals := (List.range (20 : Int).toNat).map
          (fun j => (Genetic.new 20 "").heap.length + j + 1) }) ∧
    ((Genetic.new 20 "generation.bin").fileName ≠ "" ∧
      0 ≤ headerPopulation (Genetic.new 20 "generation.bin") [5, 0, 0, 0, 2, 0, 0, 0] ∧
      8 ≤ [5, 0, 0, 0, 2, 0, 0, 0].length ∧
      (∀ r, (Genetic.new 20 "generation.bin").load sampleCollaborators3
        (some [5, 0, 0, 0, 2, 0, 0, 0]) = some r → r.1 = true) ∧
      (∃ L : List Individual,
        (Genetic.new 20 "generation.bin").load sampleCollaborators3
            (some [5, 0, 0, 0, 2, 0, 0, 0]) =
          some (true, { Genetic.new 20 "generation.bin" with
            generation := headerGeneration (Genetic.new 20 "generation.bin")
              [5, 0, 0, 0, 2, 0, 0, 0],
            population := headerPopulation (Genetic.new 20 "generation.bin")
              [5, 0, 0, 0, 2, 0, 0, 0],
            individuals := (List.range (headerPopulation (Genetic.new 20 "generation.bin")
                [5, 0, 0, 0, 2, 0, 0, 0]).toNat).map
              (fun j => (Genetic.new 20 "generation.bin").heap.length + j + 1),
            heap := (Genetic.new 20 "generation.bin").heap ++ L }) ∧
        L.length = (headerPopulation (Genetic.new 20 "generation.bin")
          [5, 0, 0, 0, 2, 0, 0, 0]).toNat ∧
        ([5, 0, 0, 0, 2, 0, 0, 0].length ≤ 8 →
          L = (List.range (headerPopulation (Genetic.new 20 "generation.bin")
              [5, 0, 0, 0, 2, 0, 0, 0]).toNat).map
            (fun j => zeroGenome (sampleCollaborators3.createRandomIndividual
              ((Genetic.new 20 "generation.bin").heap.length + j))))) ∧
      headerGeneration (Genetic.new 20 "generation.bin") [5, 0, 0, 0, 2, 0, 0, 0] =
        bytesToInt ([5, 0, 0, 0, 2, 0, 0, 0].take 4) ∧
      headerPopulation (Genetic.new 20 "generation.bin") [5, 0, 0, 0, 2, 0, 0, 0] =
        bytesToInt (([5, 0, 0, 0, 2, 0, 0, 0].drop 4).take 4)) :=
  ⟨⟨Or.inl rfl, by decide,
     ((load_false_only_when_not_opened sampleCollaborators (Genetic.new 20 "")).1 none
        (Or.inl rfl)).1,
     ((load_false_only_when_not_opened sampleCollaborators (Genetic.new 20 "")).1 none
        (Or.inl rfl)).2 (by decide)⟩,
   ⟨by decide, by decide, by decide,
     ((load_false_only_when_not_opened sampleCollaborators3 (Genetic.new 20 "generation.bin")).2
       (by decide) [5, 0, 0, 0, 2, 0, 0, 0]).1,
     ((load_false_only_when_not_opened sampleCollaborators3 (Genetic.new 20 "generation.bin")).2
       (by decide) [5, 0, 0, 0, 2, 0, 0, 0]).2.1 (by decide),
     (((load_false_only_when_not_opened sampleCollaborators3 (Genetic.new 20 "generation.bin")).2
       (by decide) [5, 0, 0, 0, 2, 0, 0, 0]).2.2.2.1 (by decide)).1,
     (((load_false_only_when_not_opened sampleCollaborators3 (Genetic.new 20 "generation.bin")).2
       (by decide) [5, 0, 0, 0, 2, 0, 0, 0]).2.2.2.1 (by decide)).2⟩⟩

/-- C7, counterexample to the claim as stated: the file holds only its 8 header bytes, which
declare 2 individuals (of topology size 3 the payload would be `8 + 2 * (8*3 + 3) = 62` bytes).
Every read of the loop fails, yet `load()` returns `true` and installs the generation 5 and the
population 2 read from the file, with two all-zero genomes. -/
theorem load_truncated_returns_true :
    [5, 0, 0, 0, 2, 0, 0, 0].length < 8 + 2 * (8 * 3 + 3) ∧
    (Genetic.new 20 "generation.bin").load sampleCollaborators3 (some [5, 0, 0, 0, 2, 0, 0, 0]) =
      some (true,
        { population := 2, fileName := "generation.bin", generation := 5, individuals := [1, 2],
          heap := [ { mlp := { weights := [0, 0, 0], connections := [false, false, false] },
                      fitness := 0 },
                    { mlp := { weights := [0, 0, 0], connections := [false, false, false] },
                      fitness := 0 } ] }) := by
  decide

/-- C8, as amended.  For every population size `P ≥ 0`, also when the elite pool would have fewer
than 2 members, construction and initialization accept the configuration: the constructor stores
`P` (and generation 1), and `initialize()`, with no checkpoint to load, builds `P` individuals
with the factory and rejects nothing. -/
theorem every_population_size_accepted (c : Collaborators) (P : Nat) (fileName : String) :
    (Genetic.new P fileName).population = P ∧ (Genetic.new P fileName).generation = 1 ∧
    ∃ g', Genetic.initialize c (Genetic.new P fileName) none = some g' ∧
      g'.population = P ∧ g'.individuals.length = P ∧
      ∀ p ∈ g'.individuals, (deref g'.heap p).isSome := by
  refine ⟨rfl, rfl, ?_⟩
  have h := genesis_when_not_opened c (Genetic.new P fileName) none (Or.inr rfl)
    (by simp [Genetic.new])
  refine ⟨_, h, rfl, by simp [Genetic.new], ?_⟩
  intro p hp
  simp only [Genetic.new, Int.toNat_ofNat, List.length_nil, Nat.zero_add, List.nil_append,
    List.mem_map, List.mem_range] at hp ⊢
  obtain ⟨j, hj, rfl⟩ := hp
  have := deref_append_new [] ((List.range P).map (fun j => c.createRandomIndividual j)) j
  simp only [List.nil_append, List.length_nil, Nat.zero_add] at this
  rw [this, List.getElem?_map, List.getElem?_range hj]
  rfl

/-- C8, counterexample to the claim as stated: a population of 5, whose elite pool would have
`(int)(5*0.2) = 1 < 2` members, is not rejected: construction and `initialize()` succeed and
leave an engine holding 5 individuals. -/
theorem population_five_not_rejected :
    eliteCount 5 = some 1 ∧
    Genetic.initialize sampleCollaborators (Genetic.new 5 "") none =
      some { population := 5, fileName := "", generation := 1, individuals := [1, 2, 3, 4, 5],
             heap := (List.range 5).map sampleCollaborators.createRandomIndividual } := by
  decide

/-- C9, evaluation of the code at the failing input: two ranks, each holding the sample
population of 10 individuals in its own memory, execute `updateAndEvolve()` once.  Rank 0 ends
with ten new individuals at the addresses 11..20 of its memory.  The payload it broadcasts is the
first 40 bytes of its array of pointers, that is the five addresses 11..15, and it is the same
whatever the genomes in the memory of rank 0 are.  Rank 1 ends with those five addresses, which
designate nothing in its own memory, followed by five of its old individuals: its population
does not have the genomes of the new population of rank 0. -/
theorem broadcast_sends_addresses :
    (updateAndEvolve sampleCollaborators [samplePopulation 10, samplePopulation 10]).map
        (fun rs => rs.map fun g => (g.individuals, g.genomes)) =
      some [ ([11, 12, 13, 14, 15, 16, 17, 18, 19, 20],
              List.replicate 10 (some { weights := [9], connections := [true] })),
             ([11, 12, 13, 14, 15, 6, 7, 8, 9, 10],
              List.replicate 5 none ++
                [some { weights := [5], connections := [true] },
                 some { weights := [6], connections := [true] },
                 some { weights := [7], connections := [true] },
                 some { weights := [8], connections := [true] },
                 some { weights := [9], connections := [true] }]) ] ∧
    (updateAndEvolve sampleCollaborators [samplePopulation 10, samplePopulation 10]).bind
        (fun rs => rs.head?.bind bcastPayload) = some (pointerBytes [11, 12, 13, 14, 15]) ∧
    ∀ (g : Genetic) (heap : List Individual),
      bcastPayload { g with heap := heap } = bcastPayload g := by
  refine ⟨by decide, by decide, fun _ _ => rfl⟩
